import Mathlib

/-!
# ip2country: address codec, range index and range query

A shallow embedding of `ip2country.go`.

* Go `string` values are modelled as `List Char`.  Every separator and digit the
  package looks at is ASCII, so splitting and digit parsing behave on the
  characters of a valid UTF-8 text exactly as they do on its bytes.
* `uint` and `int` are the 64-bit machine integers of a 64-bit Go target.  `uint`
  values are naturals reduced modulo `2 ^ 64` where the source can overflow.
  Slice indices are `Int`; they never overflow because a slice has fewer than
  `2 ^ 62` elements.
* `*big.Int` values are `Int`, with the arithmetic documented for `math/big`:
  `Lsh` multiplies by a power of two and panics when the result cannot be
  allocated, `Or` is the two's complement bitwise or (`Int.lor`), `Cmp` is the
  three-way comparison.
* Slices are lists.  A function that mutates the slice or the index returns the
  new contents.
* A run of a function that can index a slice or shift a big integer is an
  `Exec`: it returns, or it panics (index out of range, or a slice too large
  to allocate), or the loop model runs out of fuel.
* The goroutines of `GetCountryMulti` each read the index and write one slot of
  their own, and the caller waits for all of them; they are run one after the
  other in an arbitrary order, the schedule.
-/

namespace Ip2country

set_option maxRecDepth 1000000

/-! ## Results of a run -/

/-- The `error` values the package hands to its callers.  `SyntaxErr` and `RangeErr`
are the `*strconv.NumError` values of `strconv.Atoi` and `strconv.ParseInt`, wrapping
`strconv.ErrSyntax` and `strconv.ErrRange`; the other three are the package's own
sentinel errors. -/
inductive GoError where
  | ErrInvalidLine
  | ErrInvalidIPv4
  | ErrInvalidIPv6
  | SyntaxErr
  | RangeErr
  deriving DecidableEq, Repr

/-- Outcome of running a function that indexes a slice or shifts a big integer. -/
inductive Exec (α : Type) where
  /-- the function returned `a` -/
  | ret (a : α)
  /-- run-time panic: index out of range, or a slice too large to allocate -/
  | panic
  /-- the fuel of the loop model ran out before the loop ended -/
  | timeout
  deriving DecidableEq, Repr

/-! ## Data model -/

/-- Range for IPv4: `start` and `end` are `uint`. -/
structure ip4Range where
  start : Nat
  «end» : Nat
  country : List Char
  deriving DecidableEq, Repr

/-- Range for v6: `start` and `end` are `*big.Int`. -/
structure ip6Range where
  start : Int
  «end» : Int
  country : List Char
  deriving DecidableEq, Repr

/-- The index: one slice per address family. -/
structure LoadedIPs where
  arrV4 : List ip4Range
  arrV6 : List ip6Range
  deriving DecidableEq, Repr

/-- The index `Load` starts from: two empty slices. -/
def LoadedIPs.empty : LoadedIPs := ⟨[], []⟩

/-! ## Library functions used by the package -/

/-- Go `strings.Split(s, sep)` for a one-byte separator: the pieces between the
separators, always one more piece than there are separators. -/
def Split : List Char → Char → List (List Char)
  | [], _ => [[]]
  | c :: cs, sep =>
    if c = sep then [] :: Split cs sep
    else
      match Split cs sep with
      | [] => [[c]]
      | p :: ps => (c :: p) :: ps

/-- The call `strings.Replace` of `addRaw`: the text without its double quotes. -/
def removeQuotes (line : List Char) : List Char := line.filter (fun c => c ≠ '"')

/-- Go `lower(c)` of `strconv`: `c | ('x' - 'X')`. -/
def lower (b : Nat) : Nat := b ||| 0x20

/-- The digit value `strconv.ParseUint` gives a byte, before the check against the
base; `none` is its `default:` case. -/
def digitVal (c : Char) : Option Nat :=
  let b := c.toNat
  if 48 ≤ b ∧ b ≤ 57 then some (b - 48)
  else if 97 ≤ lower b ∧ lower b ≤ 122 then some (lower b - 97 + 10)
  else none

/-- The largest `uint64`. -/
def maxUint64 : Nat := 2 ^ 64 - 1

/-- The digit loop of `strconv.ParseUint(s, base, 64)` for an explicit base
(no underscores, no base prefix), with `n` the value read so far. -/
def ParseUintLoop (base : Nat) : List Char → Nat → Except GoError Nat
  | [], n => .ok n
  | c :: cs, n =>
    match digitVal c with
    | none => .error .SyntaxErr
    | some d =>
      if d ≥ base then .error .SyntaxErr
      else if n ≥ maxUint64 / base + 1 then .error .RangeErr
      else if n * base + d > maxUint64 then .error .RangeErr
      else ParseUintLoop base cs (n * base + d)

/-- Go `strconv.ParseUint(s, base, 64)` for `base` 10 or 16. -/
def ParseUint (s : List Char) (base : Nat) : Except GoError Nat :=
  match s with
  | [] => .error .SyntaxErr
  | _ => ParseUintLoop base s 0

/-- Go `strconv.ParseInt(s, base, 64)` for `base` 10 or 16: an optional sign, then
`ParseUint`, then the check against the `int64` range. -/
def ParseInt (s : List Char) (base : Nat) : Except GoError Int :=
  match s with
  | [] => .error .SyntaxErr
  | c :: cs =>
    let neg : Bool := decide (c = '-')
    let s1 := if c = '+' ∨ c = '-' then cs else c :: cs
    match ParseUint s1 base with
    | .error e => .error e
    | .ok un =>
      if neg = false ∧ un ≥ 2 ^ 63 then .error .RangeErr
      else if neg = true ∧ un > 2 ^ 63 then .error .RangeErr
      else .ok (if neg then -(un : Int) else (un : Int))

/-- Go `strconv.Atoi(s)`: the decimal `ParseInt` at the width of `int`. -/
def Atoi (s : List Char) : Except GoError Int := ParseInt s 10

/-- The conversion `uint(n)` of an `int`. -/
def toUint (n : Int) : Nat := (n % 2 ^ 64).toNat

/-- Go `x.Cmp(y)` of `math/big`: `-1`, `0` or `+1`. -/
def Cmp (x y : Int) : Int := if x < y then -1 else if x = y then 0 else 1

/-! ## AddressCodec -/

/-- Function assumes that if the string has the ':' character it is ipv6 and not v4:
`strings.Contains(ip, ":")`. -/
def isIPv6 (ip : List Char) : Bool := decide (':' ∈ ip)

/-- One iteration of the loop of `Ip4ToInt` at `index`:
`result |= uint(ipNumb) << ((uint(3) - index) * uint(8))` on `uint`. -/
def orShift (result : Nat) (ipNumb : Int) (index : Nat) : Nat :=
  result ||| ((toUint ipNumb <<< ((3 - index) * 8)) % 2 ^ 64)

/-- Convert an ipv4 ip address to a `uint`.  The loop runs `index` from 3 down to 0,
so the last component is parsed first. -/
def Ip4ToInt (ip : List Char) : Except GoError Nat :=
  match Split ip '.' with
  | [p0, p1, p2, p3] =>
    match Atoi p3 with
    | .error e => .error e
    | .ok n3 =>
      match Atoi p2 with
      | .error e => .error e
      | .ok n2 =>
        match Atoi p1 with
        | .error e => .error e
        | .ok n1 =>
          match Atoi p0 with
          | .error e => .error e
          | .ok n0 => .ok (orShift (orShift (orShift (orShift 0 n3 3) n2 2) n1 1) n0 0)
  | _ => .error .ErrInvalidIPv4

/-- The shift count `(7 - index) * 16` of `Ip6ToInt`, computed on `uint`. -/
def shiftCount (index : Nat) : Nat := (((7 + 2 ^ 64 - index) % 2 ^ 64) * 16) % 2 ^ 64

/-- Go `b.Lsh(b, n)` of `math/big`.  Zero stays zero whatever the count.  A non-zero
value gets `n / 64` more words: from `2 ^ 52` bits on that is a slice beyond the
`2 ^ 48` bytes the runtime can allocate and the call panics; below, the value is
multiplied by `2 ^ n`. -/
def Lsh (b : Int) (n : Nat) : Exec Int :=
  if b = 0 then .ret 0
  else if n ≥ 2 ^ 52 then .panic
  else .ret (b * 2 ^ n)

/-- The loop of `Ip6ToInt` over the non-empty parts, from `index` with accumulator
`result`; it returns the accumulator it leaves behind and the error, if any, or it
panics in `Lsh`. -/
def Ip6ToIntLoop : List (List Char) → Nat → Int → Exec (Int × Option GoError)
  | [], _, result => .ret (result, none)
  | p :: ps, index, result =>
    match ParseInt p 16 with
    | .error e => .ret (result, some e)
    | .ok ipNumber =>
      match Lsh ipNumber (shiftCount index) with
      | .ret b => Ip6ToIntLoop ps ((index + 1) % 2 ^ 64) (Int.lor result b)
      | .panic => .panic
      | .timeout => .timeout

/-- Convert an ipv6 ip address to `big.Int`: the accumulator `result` is updated in
place, so the model returns its final value next to the error. -/
def Ip6ToInt (ip : List Char) (result : Int) : Exec (Int × Option GoError) :=
  let parts := (Split ip ':').filter (fun part => part ≠ [])
  if parts.length = 0 then .ret (result, none)
  else Ip6ToIntLoop parts 0 result

/-! ## RangeQuery -/

/-- The loop of `binarySearch`.  `fuel` bounds the number of iterations. -/
def binarySearchLoop (arr : List ip4Range) (key : Nat) : Nat → Int → Int → Exec Int
  | 0, start, end_ => if start > end_ then .ret (-1) else .timeout
  | fuel + 1, start, end_ =>
    if start > end_ then .ret (-1)
    else
      let mid := Int.tdiv (start + end_) 2
      if mid < 0 then .panic
      else
        match arr[mid.toNat]? with
        | none => .panic
        | some r =>
          if key ≥ r.start ∧ key ≤ r.end then .ret mid
          else if key < r.start then binarySearchLoop arr key fuel start (mid - 1)
          else if key > r.end then binarySearchLoop arr key fuel (mid + 1) end_
          else binarySearchLoop arr key fuel start end_

/-- The search of the IPv4 slice between the indices `start` and `end_`, with as
much fuel as the interval has indices. -/
def binarySearch (arr : List ip4Range) (key : Nat) (start end_ : Int) : Exec Int :=
  binarySearchLoop arr key (end_ - start + 1).toNat start end_

/-- The loop of `bigBinarySearch`.  `fuel` bounds the number of iterations. -/
def bigBinarySearchLoop (arr : List ip6Range) (key : Int) : Nat → Int → Int → Exec Int
  | 0, start, end_ => if start > end_ then .ret (-1) else .timeout
  | fuel + 1, start, end_ =>
    if start > end_ then .ret (-1)
    else
      let mid := Int.tdiv (start + end_) 2
      if mid < 0 then .panic
      else
        match arr[mid.toNat]? with
        | none => .panic
        | some r =>
          if Cmp key r.start ≥ 0 ∧ Cmp key r.end ≤ 0 then .ret mid
          else if Cmp key r.start < 0 then bigBinarySearchLoop arr key fuel start (mid - 1)
          else if Cmp key r.end > 0 then bigBinarySearchLoop arr key fuel (mid + 1) end_
          else bigBinarySearchLoop arr key fuel start end_

/-- The search of the IPv6 slice between the indices `start` and `end_`. -/
def bigBinarySearch (arr : List ip6Range) (key : Int) (start end_ : Int) : Exec Int :=
  bigBinarySearchLoop arr key (end_ - start + 1).toNat start end_

/-! ## AddressRangeIndex -/

/-- The loop of `ensureV4Sorted` entered with index `i`; it returns the slice and the
index at the `break`. -/
def ensureV4SortedLoop : Nat → List ip4Range → Exec (List ip4Range × Nat)
  | 0, arr => .ret (arr, 0)
  | i + 1, arr =>
    match arr[i + 1]?, arr[i]? with
    | some x, some y =>
      if x.start ≥ y.start then .ret (arr, i + 1)
      else ensureV4SortedLoop i (arr.set (i + 1) y)
    | _, _ => .panic

/-- The insertion step on the IPv4 slice: `temp` is the last element, the loop
shifts elements up, and `temp` is stored where the loop stops. -/
def ensureV4Sorted (arr : List ip4Range) : Exec (List ip4Range) :=
  match arr.getLast? with
  | none => .panic
  | some temp =>
    match ensureV4SortedLoop (arr.length - 1) arr with
    | .ret (arr1, i) => .ret (arr1.set i temp)
    | .panic => .panic
    | .timeout => .timeout

/-- The loop of `ensureV6Sorted` entered with index `i`. -/
def ensureV6SortedLoop : Nat → List ip6Range → Exec (List ip6Range × Nat)
  | 0, arr => .ret (arr, 0)
  | i + 1, arr =>
    match arr[i + 1]?, arr[i]? with
    | some x, some y =>
      if Cmp x.start y.start ≥ 0 then .ret (arr, i + 1)
      else ensureV6SortedLoop i (arr.set (i + 1) y)
    | _, _ => .panic

/-- The insertion step on the IPv6 slice. -/
def ensureV6Sorted (arr : List ip6Range) : Exec (List ip6Range) :=
  match arr.getLast? with
  | none => .panic
  | some temp =>
    match ensureV6SortedLoop (arr.length - 1) arr with
    | .ret (arr1, i) => .ret (arr1.set i temp)
    | .panic => .panic
    | .timeout => .timeout

/-- Split a line on ',' into its three fields. -/
def extract (line : List Char) : Except GoError (List Char × List Char × List Char) :=
  match Split line ',' with
  | [p0, p1, p2] => .ok (p0, p1, p2)
  | _ => .error .ErrInvalidLine

/-- Insert one line `"{ip}","{ip}","{country}"`.  The result is the index after the
call together with the error the call returns (`none` for `nil`). -/
def addRaw (ips : LoadedIPs) (line : List Char) : Exec (LoadedIPs × Option GoError) :=
  match extract (removeQuotes line) with
  | .error e => .ret (ips, some e)
  | .ok (startIP, endIP, country) =>
    if isIPv6 startIP then
      match Ip6ToInt startIP 0 with
      | .ret (_, some e) => .ret (ips, some e)
      | .ret (startIPnum, none) =>
        match Ip6ToInt endIP 0 with
        | .ret (_, some e) => .ret (ips, some e)
        | .ret (endIPnum, none) =>
          match ensureV6Sorted (ips.arrV6 ++ [⟨startIPnum, endIPnum, country⟩]) with
          | .ret arr => .ret (⟨ips.arrV4, arr⟩, none)
          | .panic => .panic
          | .timeout => .timeout
        | .panic => .panic
        | .timeout => .timeout
      | .panic => .panic
      | .timeout => .timeout
    else
      match Ip4ToInt startIP with
      | .error e => .ret (ips, some e)
      | .ok startIPnum =>
        match Ip4ToInt endIP with
        | .error e => .ret (ips, some e)
        | .ok endIPnum =>
          match ensureV4Sorted (ips.arrV4 ++ [⟨startIPnum, endIPnum, country⟩]) with
          | .ret arr => .ret (⟨arr, ips.arrV6⟩, none)
          | .panic => .panic
          | .timeout => .timeout

/-- The scanner loop of `loadFile` over the lines of the file: insert line after
line, stop at the first error. -/
def loadLines (ips : LoadedIPs) : List (List Char) → Exec (LoadedIPs × Option GoError)
  | [] => .ret (ips, none)
  | line :: rest =>
    match addRaw ips line with
    | .ret (ips1, none) => loadLines ips1 rest
    | .ret (ips1, some e) => .ret (ips1, some e)
    | .panic => .panic
    | .timeout => .timeout

/-- GetCountry returns the country which ip belongs to; the empty text when there is
none. -/
def GetCountry (ips : LoadedIPs) (ip : List Char) : Exec (List Char) :=
  if isIPv6 ip then
    match Ip6ToInt ip 0 with
    | .ret (_, some _) => .ret []
    | .ret (ipNumb, none) =>
      match bigBinarySearch ips.arrV6 ipNumb 0 ((ips.arrV6.length : Int) - 1) with
      | .ret index =>
        if index = -1 then .ret []
        else if index < 0 then .panic
        else
          match ips.arrV6[index.toNat]? with
          | some r => .ret r.country
          | none => .panic
      | .panic => .panic
      | .timeout => .timeout
    | .panic => .panic
    | .timeout => .timeout
  else
    match Ip4ToInt ip with
    | .error _ => .ret []
    | .ok ipNumb =>
      match binarySearch ips.arrV4 ipNumb 0 ((ips.arrV4.length : Int) - 1) with
      | .ret index =>
        if index = -1 then .ret []
        else if index < 0 then .panic
        else
          match ips.arrV4[index.toNat]? with
          | some r => .ret r.country
          | none => .panic
      | .panic => .panic
      | .timeout => .timeout

/-- The goroutines of `GetCountryMulti`, run to completion one after the other in the
order `schedule`: the goroutine of `index` stores `GetCountry(addrs[index])` in
`answers[index]`. -/
def GetCountryMultiRun (ips : LoadedIPs) (addrs : List (List Char)) :
    List Nat → List (List Char) → Exec (List (List Char))
  | [], answers => .ret answers
  | index :: rest, answers =>
    match addrs[index]? with
    | none => .panic
    | some addr =>
      match GetCountry ips addr with
      | .ret country =>
        if index < answers.length then
          GetCountryMultiRun ips addrs rest (answers.set index country)
        else .panic
      | .panic => .panic
      | .timeout => .timeout

/-- The batch version of `GetCountry`: `answers` is made with one empty text per
address, one goroutine is started per index, and the call returns `answers` once all of
them are done.  `schedule` is the order in which the goroutines happen to run. -/
def GetCountryMulti (ips : LoadedIPs) (addrs : List (List Char)) (schedule : List Nat) :
    Exec (List (List Char)) :=
  GetCountryMultiRun ips addrs schedule (List.replicate addrs.length [])

/-! ## Definitions used to state the properties -/

/-- Value of a text of decimal digits, most significant digit first. -/
def decimalValue (s : List Char) : Nat :=
  s.foldl (fun n c => n * 10 + (c.toNat - 48)) 0

/-- A decimal component of a dotted quad: a non-empty text of decimal digits whose
value is in 0..255. -/
def byteText (s : List Char) : Bool :=
  decide (s ≠ []) && s.all Char.isDigit && decide (decimalValue s ≤ 255)

/-- The value of a valid dotted-quad IPv4 text (four decimal components in 0..255
separated by '.'), `none` for any other text. -/
def dottedQuad (t : List Char) : Option Nat :=
  match Split t '.' with
  | [p0, p1, p2, p3] =>
    if byteText p0 ∧ byteText p1 ∧ byteText p2 ∧ byteText p3 then
      some (decimalValue p0 * 2 ^ 24 + decimalValue p1 * 2 ^ 16 + decimalValue p2 * 2 ^ 8
        + decimalValue p3)
    else none
  | _ => none

/-- An IPv4 range with its bounds converted to big integers. -/
def toBig (r : ip4Range) : ip6Range := ⟨(r.start : Int), (r.end : Int), r.country⟩

/-- The line reads `s,e,c` for the IPv4 range `r`: once its double quotes are removed
it splits on ',' into the three fields `s`, `e`, `c`, where `s` and `e` are valid
dotted-quad texts with the values `r.start` and `r.end`, and `c` is `r.country`. -/
def lineOf (line : List Char) (r : ip4Range) : Prop :=
  ∃ s e : List Char, extract (removeQuotes line) = .ok (s, e, r.country) ∧
    dottedQuad s = some r.start ∧ dottedQuad e = some r.end

/-- The three lines of the end-to-end example. -/
def sampleLines : List (List Char) :=
  ["0.0.0.0,0.255.255.255,ZZ".toList, "50.97.196.0,50.97.197.255,US".toList,
    "50.97.198.0,50.97.199.255,CN".toList]

/-- The ranges the three lines of the end-to-end example stand for. -/
def sampleRanges : List ip4Range :=
  [⟨0, 16777215, "ZZ".toList⟩, ⟨845267968, 845268479, "US".toList⟩,
    ⟨845268480, 845268991, "CN".toList⟩]

/-- Three lines with disjoint ranges, the last one out of order. -/
def unorderedLines : List (List Char) :=
  ["2.0.0.0,2.0.0.255,AA".toList, "3.0.0.0,3.0.0.255,BB".toList,
    "1.0.0.0,1.0.0.255,CC".toList]

/-- The index `loadLines` builds from `unorderedLines`. -/
def unorderedIndex : LoadedIPs :=
  ⟨[⟨33554432, 33554687, "AA".toList⟩, ⟨16777216, 16777471, "CC".toList⟩,
    ⟨50331648, 50331903, "BB".toList⟩], []⟩

/-- The ranges of `unorderedLines` in the order of the lines: the slice on which the
third insert runs the insertion step. -/
def unorderedRanges : List ip4Range :=
  [⟨33554432, 33554687, "AA".toList⟩, ⟨50331648, 50331903, "BB".toList⟩,
    ⟨16777216, 16777471, "CC".toList⟩]

/-- The bitwise OR over the values of the non-empty segments, the segment at position
`i` shifted left by `(7 - i) * 16` bits; `i` is the position of the first value. -/
def orGroups : List Nat → Nat → Nat
  | [], _ => 0
  | v :: vs, i => (v * 2 ^ ((7 - i) * 16)) ||| orGroups vs (i + 1)

/-- Value of a hexadecimal digit, upper or lower case. -/
def hexDigitValue (c : Char) : Option Nat :=
  let b := c.toNat
  if 48 ≤ b ∧ b ≤ 57 then some (b - 48)
  else if 97 ≤ b ∧ b ≤ 102 then some (b - 87)
  else if 65 ≤ b ∧ b ≤ 70 then some (b - 55)
  else none

/-- Value of a text of hexadecimal digits, most significant digit first. -/
def hexValue (g : List Char) : Nat :=
  g.foldl (fun n c => n * 16 + (hexDigitValue c).getD 0) 0

/-- A group of a well-formed IPv6 text: one to four hexadecimal digits. -/
def hexGroup (g : List Char) : Bool :=
  decide (1 ≤ g.length) && decide (g.length ≤ 4) && g.all (fun c => (hexDigitValue c).isSome)

/-- The groups written one after the other with ':' in between. -/
def joinGroups : List (List Char) → List Char
  | [] => []
  | [g] => g
  | g :: g1 :: gs => g ++ ':' :: joinGroups (g1 :: gs)

/-- The standard value of an IPv6 address from the groups of its expanded form:
the group at position `i` weighs `2 ^ (16 * (7 - i))`; `i` is the position of the
first group of the list. -/
def groupsValue : List Nat → Nat → Nat
  | [], _ => 0
  | g :: gs, i => g * 2 ^ (16 * (7 - i)) + groupsValue gs (i + 1)

/-! ## Lemmas -/

theorem Cmp_nonneg_iff (x y : Int) : Cmp x y ≥ 0 ↔ y ≤ x := by
  unfold Cmp; split_ifs <;> omega

theorem Cmp_nonpos_iff (x y : Int) : Cmp x y ≤ 0 ↔ x ≤ y := by
  unfold Cmp; split_ifs <;> omega

theorem Cmp_neg_iff (x y : Int) : Cmp x y < 0 ↔ x < y := by
  unfold Cmp; split_ifs <;> omega

theorem Cmp_pos_iff (x y : Int) : Cmp x y > 0 ↔ y < x := by
  unfold Cmp; split_ifs <;> omega

theorem mid_bounds (start end_ : Int) (h0 : 0 ≤ start) (h : start ≤ end_) :
    start ≤ Int.tdiv (start + end_) 2 ∧ Int.tdiv (start + end_) 2 ≤ end_ := by
  rw [Int.tdiv_eq_ediv (by omega) (by omega)]
  omega

/-- One unfolding of the loop of `bigBinarySearch` on a non-empty interval whose
probe is in bounds. -/
theorem bigBinarySearchLoop_step (arr : List ip6Range) (key : Int) (fuel : Nat)
    (start end_ : Int) (h : start ≤ end_) (r : ip6Range)
    (hm : 0 ≤ Int.tdiv (start + end_) 2)
    (hr : arr[(Int.tdiv (start + end_) 2).toNat]? = some r) :
    bigBinarySearchLoop arr key (fuel + 1) start end_ =
      if r.start ≤ key ∧ key ≤ r.end then .ret (Int.tdiv (start + end_) 2)
      else if key < r.start then
        bigBinarySearchLoop arr key fuel start (Int.tdiv (start + end_) 2 - 1)
      else bigBinarySearchLoop arr key fuel (Int.tdiv (start + end_) 2 + 1) end_ := by
  rw [bigBinarySearchLoop]
  have h1 : ¬ start > end_ := by omega
  have h2 : ¬ Int.tdiv (start + end_) 2 < 0 := by omega
  simp only [h1, h2, if_false, hr, Cmp_nonneg_iff, Cmp_nonpos_iff, Cmp_neg_iff, Cmp_pos_iff]
  by_cases c1 : r.start ≤ key ∧ key ≤ r.end
  · simp [c1]
  · by_cases c2 : key < r.start
    · simp [c1, c2]
    · have c3 : key > r.end := by
        by_contra hc
        exact c1 ⟨by omega, by omega⟩
      simp [c1, c2, c3]

/-- Whatever the slice holds, a search of an interval inside the slice returns, and it
returns `-1` or an index of the interval whose range contains the key. -/
theorem bigBinarySearchLoop_sound (arr : List ip6Range) (key : Int) :
    ∀ (fuel : Nat) (start end_ : Int), 0 ≤ start → end_ < arr.length →
      (end_ - start + 1).toNat ≤ fuel →
      ∃ i, bigBinarySearchLoop arr key fuel start end_ = .ret i ∧
        (i = -1 ∨ (start ≤ i ∧ i ≤ end_ ∧
          ∃ r, arr[i.toNat]? = some r ∧ r.start ≤ key ∧ key ≤ r.end)) := by
  intro fuel
  induction fuel with
  | zero =>
    intro start end_ _ _ h2
    have h : start > end_ := by omega
    exact ⟨-1, by simp [bigBinarySearchLoop, h], Or.inl rfl⟩
  | succ n ih =>
    intro start end_ h0 h1 h2
    by_cases h : start > end_
    · exact ⟨-1, by simp [bigBinarySearchLoop, h], Or.inl rfl⟩
    · have hb := mid_bounds start end_ h0 (by omega)
      have hlt : (Int.tdiv (start + end_) 2).toNat < arr.length := by omega
      have hr : arr[(Int.tdiv (start + end_) 2).toNat]? =
          some (arr[(Int.tdiv (start + end_) 2).toNat]) := List.getElem?_eq_getElem hlt
      rw [bigBinarySearchLoop_step arr key n start end_ (by omega) _ (by omega) hr]
      split_ifs with c1 c2
      · exact ⟨_, rfl, Or.inr ⟨hb.1, hb.2, _, hr, c1.1, c1.2⟩⟩
      · obtain ⟨i, hi, hres⟩ := ih start (Int.tdiv (start + end_) 2 - 1) h0 (by omega) (by omega)
        refine ⟨i, hi, ?_⟩
        rcases hres with hres | ⟨a, b, c⟩
        · exact Or.inl hres
        · exact Or.inr ⟨a, by omega, c⟩
      · obtain ⟨i, hi, hres⟩ := ih (Int.tdiv (start + end_) 2 + 1) end_ (by omega) h1 (by omega)
        refine ⟨i, hi, ?_⟩
        rcases hres with hres | ⟨a, b, c⟩
        · exact Or.inl hres
        · exact Or.inr ⟨by omega, b, c⟩

/-- On a slice sorted by start whose ranges are pairwise disjoint and have
`start ≤ end`, a search of an interval that holds the index `t` of a range containing
the key returns `t`. -/
theorem bigBinarySearchLoop_found (arr : List ip6Range) (key : Int)
    (hle : ∀ (i : Nat) (r : ip6Range), arr[i]? = some r → r.start ≤ r.end)
    (hs : ∀ (i j : Nat) (ri rj : ip6Range), arr[i]? = some ri → arr[j]? = some rj →
      i < j → ri.start ≤ rj.start)
    (hd : ∀ (i j : Nat) (ri rj : ip6Range), arr[i]? = some ri → arr[j]? = some rj →
      i < j → ∀ k : Int, ¬ (ri.start ≤ k ∧ k ≤ ri.end ∧ rj.start ≤ k ∧ k ≤ rj.end))
    (t : Nat) (rt : ip6Range) (ht : arr[t]? = some rt)
    (hk : rt.start ≤ key ∧ key ≤ rt.end) :
    ∀ (fuel : Nat) (start end_ : Int), 0 ≤ start → end_ < arr.length →
      (end_ - start + 1).toNat ≤ fuel → start ≤ t → (t : Int) ≤ end_ →
      bigBinarySearchLoop arr key fuel start end_ = .ret (t : Int) := by
  intro fuel
  induction fuel with
  | zero =>
    intro start end_ _ _ h2 h3 h4
    omega
  | succ n ih =>
    intro start end_ h0 h1 h2 h3 h4
    have hb := mid_bounds start end_ h0 (by omega)
    have hlt : (Int.tdiv (start + end_) 2).toNat < arr.length := by omega
    have hr : arr[(Int.tdiv (start + end_) 2).toNat]? =
        some (arr[(Int.tdiv (start + end_) 2).toNat]) := List.getElem?_eq_getElem hlt
    rw [bigBinarySearchLoop_step arr key n start end_ (by omega) _ (by omega) hr]
    generalize hmid : (Int.tdiv (start + end_) 2) = mid at *
    generalize hrm : arr[mid.toNat] = rm at *
    split_ifs with c1 c2
    · -- the probe contains the key: it is the range `t`
      rcases Nat.lt_trichotomy mid.toNat t with hlt2 | heq | hgt
      · exact absurd ⟨c1.1, c1.2, hk.1, hk.2⟩ (hd _ _ _ _ hr ht hlt2 key)
      · congr 1; omega
      · exact absurd ⟨hk.1, hk.2, c1.1, c1.2⟩ (hd _ _ _ _ ht hr hgt key)
    · -- key below the probe: `t` is to the left
      apply ih start (mid - 1) h0 (by omega) (by omega) h3
      by_contra hc
      rcases Nat.lt_or_ge mid.toNat t with hlt2 | hge
      · have := hs _ _ _ _ hr ht hlt2
        omega
      · have heq : mid.toNat = t := by omega
        rw [heq, ht] at hr
        cases hr
        omega
    · -- key above the probe: `t` is to the right
      have c3 : rm.end < key := by
        by_contra hc
        exact c1 ⟨by omega, by omega⟩
      apply ih (mid + 1) end_ (by omega) h1 (by omega) _ h4
      by_contra hc
      rcases Nat.lt_or_ge t mid.toNat with hlt2 | hge
      · have h5 := hs _ _ _ _ ht hr hlt2
        have h6 := hle _ _ hr
        exact hd _ _ _ _ ht hr hlt2 rm.start ⟨h5, by omega, le_refl _, h6⟩
      · have heq : mid.toNat = t := by omega
        rw [heq, ht] at hr
        cases hr
        omega

/-- The IPv4 loop is the IPv6 loop on the converted slice and key. -/
theorem binarySearchLoop_eq_big (arr : List ip4Range) (key : Nat) :
    ∀ (fuel : Nat) (start end_ : Int),
      binarySearchLoop arr key fuel start end_ =
        bigBinarySearchLoop (arr.map toBig) (key : Int) fuel start end_ := by
  intro fuel
  induction fuel with
  | zero => intro start end_; simp [binarySearchLoop, bigBinarySearchLoop]
  | succ n ih =>
    intro start end_
    rw [binarySearchLoop, bigBinarySearchLoop]
    simp only [List.getElem?_map, ih]
    cases arr[(Int.tdiv (start + end_) 2).toNat]? with
    | none => simp
    | some r =>
      simp only [Option.map_some', toBig, Cmp_nonneg_iff, Cmp_nonpos_iff, Cmp_neg_iff,
        Cmp_pos_iff, Nat.cast_le, Nat.cast_lt, ge_iff_le, gt_iff_lt]

theorem binarySearch_eq_big (arr : List ip4Range) (key : Nat) (start end_ : Int) :
    binarySearch arr key start end_ =
      bigBinarySearch (arr.map toBig) (key : Int) start end_ := by
  unfold binarySearch bigBinarySearch
  exact binarySearchLoop_eq_big arr key _ start end_

theorem bigBinarySearch_sound (arr : List ip6Range) (key : Int) :
    ∃ i, bigBinarySearch arr key 0 ((arr.length : Int) - 1) = .ret i ∧
      (i = -1 ∨ (0 ≤ i ∧ i < arr.length ∧
        ∃ r, arr[i.toNat]? = some r ∧ r.start ≤ key ∧ key ≤ r.end)) := by
  obtain ⟨i, hi, h⟩ := bigBinarySearchLoop_sound arr key
    ((arr.length : Int) - 1 - 0 + 1).toNat 0 ((arr.length : Int) - 1) le_rfl (by omega) le_rfl
  refine ⟨i, hi, ?_⟩
  rcases h with h | ⟨a, b, c⟩
  · exact Or.inl h
  · exact Or.inr ⟨a, by omega, c⟩

theorem binarySearch_sound (arr : List ip4Range) (key : Nat) :
    ∃ i, binarySearch arr key 0 ((arr.length : Int) - 1) = .ret i ∧
      (i = -1 ∨ (0 ≤ i ∧ i < arr.length ∧
        ∃ r, arr[i.toNat]? = some r ∧ r.start ≤ key ∧ key ≤ r.end)) := by
  obtain ⟨i, hi, h⟩ := bigBinarySearch_sound (arr.map toBig) (key : Int)
  rw [List.length_map] at hi h
  refine ⟨i, by rw [binarySearch_eq_big]; exact hi, ?_⟩
  rcases h with h | ⟨a, b, r, hr, c⟩
  · exact Or.inl h
  · rw [List.getElem?_map] at hr
    cases hr4 : arr[i.toNat]? with
    | none => simp [hr4] at hr
    | some r4 =>
      simp only [hr4, Option.map_some', Option.some.injEq] at hr
      subst hr
      exact Or.inr ⟨a, b, r4, rfl, by simpa [toBig] using c⟩

theorem bigBinarySearch_found (arr : List ip6Range) (key : Int)
    (hle : ∀ r ∈ arr, r.start ≤ r.end)
    (hs : arr.Pairwise (fun a b => a.start ≤ b.start))
    (hd : arr.Pairwise (fun a b =>
      ∀ k : Int, ¬ (a.start ≤ k ∧ k ≤ a.end ∧ b.start ≤ k ∧ k ≤ b.end)))
    (t : Nat) (rt : ip6Range) (ht : arr[t]? = some rt)
    (hk : rt.start ≤ key ∧ key ≤ rt.end) :
    bigBinarySearch arr key 0 ((arr.length : Int) - 1) = .ret (t : Int) := by
  have htl : t < arr.length := by
    by_contra hc
    rw [List.getElem?_eq_none (by omega)] at ht
    cases ht
  unfold bigBinarySearch
  refine bigBinarySearchLoop_found arr key ?_ ?_ ?_ t rt ht hk _ 0 _ le_rfl (by omega) le_rfl
    (by omega) (by omega)
  · intro i r hr
    exact hle r (List.getElem?_mem hr)
  · intro i j ri rj hi hj hij
    obtain ⟨hil, rfl⟩ := List.getElem?_eq_some.mp hi
    obtain ⟨hjl, rfl⟩ := List.getElem?_eq_some.mp hj
    exact List.pairwise_iff_getElem.mp hs i j hil hjl hij
  · intro i j ri rj hi hj hij
    obtain ⟨hil, rfl⟩ := List.getElem?_eq_some.mp hi
    obtain ⟨hjl, rfl⟩ := List.getElem?_eq_some.mp hj
    exact List.pairwise_iff_getElem.mp hd i j hil hjl hij

theorem binarySearch_found (arr : List ip4Range) (key : Nat)
    (hle : ∀ r ∈ arr, r.start ≤ r.end)
    (hs : arr.Pairwise (fun a b => a.start ≤ b.start))
    (hd : arr.Pairwise (fun a b =>
      ∀ k : Nat, ¬ (a.start ≤ k ∧ k ≤ a.end ∧ b.start ≤ k ∧ k ≤ b.end)))
    (t : Nat) (rt : ip4Range) (ht : arr[t]? = some rt)
    (hk : rt.start ≤ key ∧ key ≤ rt.end) :
    binarySearch arr key 0 ((arr.length : Int) - 1) = .ret (t : Int) := by
  rw [binarySearch_eq_big]
  have h := bigBinarySearch_found (arr.map toBig) (key : Int) ?_ ?_ ?_ t (toBig rt)
    (by rw [List.getElem?_map, ht]; rfl) (by simpa [toBig] using hk)
  · rwa [List.length_map] at h
  · intro r hr
    obtain ⟨r4, hr4, rfl⟩ := List.mem_map.mp hr
    simpa [toBig] using hle r4 hr4
  · rw [List.pairwise_map]
    exact hs.imp (fun {a b} hab => by simpa [toBig] using hab)
  · rw [List.pairwise_map]
    refine hd.imp (fun {a b} hab => ?_)
    intro k hk
    simp only [toBig] at hk
    have hk0 : 0 ≤ k := le_trans (Int.ofNat_nonneg _) hk.1
    refine hab k.toNat ⟨?_, ?_, ?_, ?_⟩ <;> omega

theorem binarySearch_absent (arr : List ip4Range) (key : Nat)
    (h : ∀ r ∈ arr, ¬ (r.start ≤ key ∧ key ≤ r.end)) :
    binarySearch arr key 0 ((arr.length : Int) - 1) = .ret (-1) := by
  obtain ⟨i, hi, hres⟩ := binarySearch_sound arr key
  rcases hres with rfl | ⟨_, _, r, hr, hk⟩
  · exact hi
  · exact absurd hk (h r (List.getElem?_mem hr))

theorem bigBinarySearch_absent (arr : List ip6Range) (key : Int)
    (h : ∀ r ∈ arr, ¬ (r.start ≤ key ∧ key ≤ r.end)) :
    bigBinarySearch arr key 0 ((arr.length : Int) - 1) = .ret (-1) := by
  obtain ⟨i, hi, hres⟩ := bigBinarySearch_sound arr key
  rcases hres with rfl | ⟨_, _, r, hr, hk⟩
  · exact hi
  · exact absurd hk (h r (List.getElem?_mem hr))

theorem GetCountry_v4_absent (ips : LoadedIPs) (ip : List Char) (v : Nat)
    (h6 : isIPv6 ip = false) (hv : Ip4ToInt ip = .ok v)
    (h : ∀ r ∈ ips.arrV4, ¬ (r.start ≤ v ∧ v ≤ r.end)) :
    GetCountry ips ip = .ret [] := by
  unfold GetCountry
  simp [h6, hv, binarySearch_absent ips.arrV4 v h]

theorem GetCountry_v6_absent (ips : LoadedIPs) (ip : List Char) (v : Int)
    (h6 : isIPv6 ip = true) (hv : Ip6ToInt ip 0 = .ret (v, none))
    (h : ∀ r ∈ ips.arrV6, ¬ (r.start ≤ v ∧ v ≤ r.end)) :
    GetCountry ips ip = .ret [] := by
  unfold GetCountry
  simp [h6, hv, bigBinarySearch_absent ips.arrV6 v h]

theorem GetCountry_v4_found (ips : LoadedIPs) (ip : List Char) (v : Nat)
    (h6 : isIPv6 ip = false) (hv : Ip4ToInt ip = .ok v)
    (hle : ∀ r ∈ ips.arrV4, r.start ≤ r.end)
    (hs : ips.arrV4.Pairwise (fun a b => a.start ≤ b.start))
    (hd : ips.arrV4.Pairwise (fun a b =>
      ∀ k : Nat, ¬ (a.start ≤ k ∧ k ≤ a.end ∧ b.start ≤ k ∧ k ≤ b.end)))
    (r : ip4Range) (hr : r ∈ ips.arrV4) (hk : r.start ≤ v ∧ v ≤ r.end) :
    GetCountry ips ip = .ret r.country := by
  obtain ⟨t, ht⟩ := List.getElem?_of_mem hr
  unfold GetCountry
  simp only [h6, hv, binarySearch_found ips.arrV4 v hle hs hd t r ht hk]
  have h1 : ¬ ((t : Int) = -1) := by omega
  have h2 : ¬ ((t : Int) < 0) := by omega
  simp [h1, h2, ht]

theorem foldl_digits_ge (base : Nat) (hb : 1 ≤ base) (g : Char → Nat) :
    ∀ (cs : List Char) (n : Nat), n ≤ cs.foldl (fun n c => n * base + g c) n := by
  intro cs
  induction cs with
  | nil => intro n; exact le_rfl
  | cons c cs ih =>
    intro n
    simp only [List.foldl_cons]
    calc n ≤ n * base := Nat.le_mul_of_pos_right n hb
      _ ≤ n * base + g c := Nat.le_add_right _ _
      _ ≤ _ := ih _

/-- The digit loop of `ParseUint` returns the positional value of a text of valid
digits when that value fits a `uint64`. -/
theorem ParseUintLoop_ok (base : Nat) (hb : 1 ≤ base) (g : Char → Nat) :
    ∀ (cs : List Char) (n : Nat),
      (∀ c ∈ cs, digitVal c = some (g c) ∧ g c < base) →
      cs.foldl (fun n c => n * base + g c) n ≤ maxUint64 →
      ParseUintLoop base cs n = .ok (cs.foldl (fun n c => n * base + g c) n) := by
  intro cs
  induction cs with
  | nil => intro n _ _; rfl
  | cons c cs ih =>
    intro n hd hle
    simp only [List.foldl_cons] at hle ⊢
    have hc := hd c (List.mem_cons_self _ _)
    have h1 : n * base + g c ≤ maxUint64 :=
      le_trans (foldl_digits_ge base hb g cs _) hle
    have h2 : ¬ n ≥ maxUint64 / base + 1 := by
      intro h
      have h3 : maxUint64 < (maxUint64 / base + 1) * base := by
        have := Nat.lt_succ_self (maxUint64 / base)
        exact (Nat.div_lt_iff_lt_mul (by omega)).mp this
      have h4 : (maxUint64 / base + 1) * base ≤ n * base := Nat.mul_le_mul_right _ h
      omega
    rw [ParseUintLoop]
    simp only [hc.1, not_le.mpr hc.2, ge_iff_le, if_false, h2, not_lt.mpr h1, gt_iff_lt]
    exact ih _ (fun c hc => hd c (List.mem_cons_of_mem _ hc)) hle

theorem digitVal_of_isDigit (c : Char) (h : c.isDigit = true) :
    digitVal c = some (c.toNat - 48) ∧ c.toNat - 48 < 10 := by
  simp only [Char.isDigit, Bool.and_eq_true, decide_eq_true_eq] at h
  have h1 : 48 ≤ c.toNat := h.1
  have h2 : c.toNat ≤ 57 := h.2
  refine ⟨?_, by omega⟩
  simp [digitVal, h1, h2]

theorem not_sign_of_isDigit (c : Char) (h : c.isDigit = true) : c ≠ '+' ∧ c ≠ '-' := by
  simp only [Char.isDigit, Bool.and_eq_true, decide_eq_true_eq] at h
  have h1 : 48 ≤ c.toNat := h.1
  constructor <;> (rintro rfl; revert h1; decide)

/-- Go `Atoi` reads a non-empty text of decimal digits whose value fits an `int` as that
value. -/
theorem Atoi_digits (s : List Char) (hne : s ≠ []) (hd : s.all Char.isDigit = true)
    (hv : decimalValue s < 2 ^ 63) : Atoi s = .ok (decimalValue s : Int) := by
  have hall : ∀ c ∈ s, digitVal c = some (c.toNat - 48) ∧ c.toNat - 48 < 10 := by
    intro c hc
    exact digitVal_of_isDigit c (List.all_eq_true.mp hd c hc)
  have hloop : ParseUintLoop 10 s 0 = .ok (decimalValue s) :=
    ParseUintLoop_ok 10 (by omega) (fun c => c.toNat - 48) s 0 hall
      (by show decimalValue s ≤ maxUint64; unfold maxUint64; omega)
  cases s with
  | nil => exact absurd rfl hne
  | cons c cs =>
    have hsign := not_sign_of_isDigit c (List.all_eq_true.mp hd c (List.mem_cons_self _ _))
    have hv2 : ¬ (2 ^ 63 ≤ decimalValue (c :: cs)) := by omega
    unfold Atoi ParseInt
    simp only [hsign.1, hsign.2, or_self, if_false, decide_False, ParseUint, hloop]
    simp only [hv2, and_false, false_and, if_false, Bool.false_eq_true]

theorem Split_ne_nil (s : List Char) (sep : Char) : Split s sep ≠ [] := by
  cases s with
  | nil => simp [Split]
  | cons c cs =>
    rw [Split]
    split_ifs
    · simp
    · split <;> simp

theorem Split_of_not_mem (sep : Char) : ∀ p : List Char, sep ∉ p → Split p sep = [p] := by
  intro p
  induction p with
  | nil => intro _; rfl
  | cons c cs ih =>
    intro h
    have hc : c ≠ sep := fun e => h (by simp [e])
    have hcs : sep ∉ cs := fun e => h (List.mem_cons_of_mem _ e)
    rw [Split, if_neg hc, ih hcs]

theorem Split_append_sep (sep : Char) (rest : List Char) :
    ∀ p : List Char, sep ∉ p → Split (p ++ sep :: rest) sep = p :: Split rest sep := by
  intro p
  induction p with
  | nil => intro _; simp [Split]
  | cons c cs ih =>
    intro h
    have hc : c ≠ sep := fun e => h (by simp [e])
    have hcs : sep ∉ cs := fun e => h (List.mem_cons_of_mem _ e)
    rw [List.cons_append, Split, if_neg hc, ih hcs]

/-- Every character of a text is the separator or lies in one of the pieces. -/
theorem mem_Split (sep : Char) : ∀ (s : List Char) (c : Char), c ∈ s →
    c = sep ∨ ∃ p ∈ Split s sep, c ∈ p := by
  intro s
  induction s with
  | nil => intro c h; cases h
  | cons a s ih =>
    intro c h
    rw [Split]
    by_cases ha : a = sep
    · rw [if_pos ha]
      rcases List.mem_cons.mp h with rfl | h
      · exact Or.inl ha
      · rcases ih c h with h1 | ⟨p, hp, hcp⟩
        · exact Or.inl h1
        · exact Or.inr ⟨p, List.mem_cons_of_mem _ hp, hcp⟩
    · rw [if_neg ha]
      cases hsp : Split s sep with
      | nil => exact absurd hsp (Split_ne_nil s sep)
      | cons q qs =>
        simp only
        rcases List.mem_cons.mp h with rfl | h
        · exact Or.inr ⟨c :: q, List.mem_cons_self _ _, List.mem_cons_self _ _⟩
        · rcases ih c h with h1 | ⟨p, hp, hcp⟩
          · exact Or.inl h1
          · rw [hsp] at hp
            rcases List.mem_cons.mp hp with rfl | hp
            · exact Or.inr ⟨a :: p, List.mem_cons_self _ _, List.mem_cons_of_mem _ hcp⟩
            · exact Or.inr ⟨p, List.mem_cons_of_mem _ hp, hcp⟩

theorem toUint_natCast (b : Nat) (h : b < 2 ^ 64) : toUint (b : Int) = b := by
  unfold toUint
  have : ((b : Int) % 2 ^ 64) = (b : Int) := Int.emod_eq_of_lt (by omega) (by omega)
  rw [this]
  simp

/-- The four iterations of `Ip4ToInt` on bytes compose them big-endian. -/
theorem orShift_bytes (b0 b1 b2 b3 : Nat) (h0 : b0 ≤ 255) (h1 : b1 ≤ 255) (h2 : b2 ≤ 255)
    (h3 : b3 ≤ 255) :
    orShift (orShift (orShift (orShift 0 (b3 : Int) 3) (b2 : Int) 2) (b1 : Int) 1) (b0 : Int) 0
      = b0 * 2 ^ 24 + b1 * 2 ^ 16 + b2 * 2 ^ 8 + b3 := by
  unfold orShift
  rw [toUint_natCast b0 (by omega), toUint_natCast b1 (by omega), toUint_natCast b2 (by omega),
    toUint_natCast b3 (by omega)]
  simp only [Nat.sub_self, Nat.zero_mul, Nat.shiftLeft_zero, Nat.zero_or, Nat.shiftLeft_eq,
    Nat.reduceSub, Nat.reduceMul, Nat.one_mul, Nat.sub_zero]
  rw [Nat.pow_zero, Nat.mul_one, Nat.mod_eq_of_lt (by omega : b3 < 2 ^ 64), Nat.mod_eq_of_lt (by omega : b2 * 2 ^ 8 < 2 ^ 64),
    Nat.mod_eq_of_lt (by omega : b1 * 2 ^ 16 < 2 ^ 64),
    Nat.mod_eq_of_lt (by omega : b0 * 2 ^ 24 < 2 ^ 64)]
  have e1 : b3 ||| b2 * 2 ^ 8 = b2 * 2 ^ 8 + b3 := by
    rw [Nat.lor_comm, Nat.mul_comm b2, Nat.mul_add_lt_is_or (by omega : b3 < 2 ^ 8)]
  have e2 : (b2 * 2 ^ 8 + b3) ||| b1 * 2 ^ 16 = b1 * 2 ^ 16 + (b2 * 2 ^ 8 + b3) := by
    rw [Nat.lor_comm, Nat.mul_comm b1,
      Nat.mul_add_lt_is_or (by omega : b2 * 2 ^ 8 + b3 < 2 ^ 16)]
  have e3 : (b1 * 2 ^ 16 + (b2 * 2 ^ 8 + b3)) ||| b0 * 2 ^ 24
      = b0 * 2 ^ 24 + (b1 * 2 ^ 16 + (b2 * 2 ^ 8 + b3)) := by
    rw [Nat.lor_comm, Nat.mul_comm b0,
      Nat.mul_add_lt_is_or (by omega : b1 * 2 ^ 16 + (b2 * 2 ^ 8 + b3) < 2 ^ 24)]
  rw [e1, e2, e3]
  omega

theorem byteText_spec (p : List Char) (h : byteText p = true) :
    Atoi p = .ok (decimalValue p : Int) ∧ decimalValue p ≤ 255 ∧
      (∀ c ∈ p, c.isDigit = true) := by
  simp only [byteText, Bool.and_eq_true, decide_eq_true_eq] at h
  obtain ⟨⟨hne, hd⟩, hv⟩ := h
  exact ⟨Atoi_digits p hne hd (by omega), hv, fun c hc => List.all_eq_true.mp hd c hc⟩

/-- Function `Ip4ToInt` reads four decimal components in 0..255 as their big-endian
composition. -/
theorem Ip4ToInt_of_Split (t p0 p1 p2 p3 : List Char) (hs : Split t '.' = [p0, p1, p2, p3])
    (h0 : byteText p0 = true) (h1 : byteText p1 = true) (h2 : byteText p2 = true)
    (h3 : byteText p3 = true) :
    Ip4ToInt t = .ok (decimalValue p0 * 2 ^ 24 + decimalValue p1 * 2 ^ 16
      + decimalValue p2 * 2 ^ 8 + decimalValue p3) := by
  obtain ⟨a0, v0, _⟩ := byteText_spec p0 h0
  obtain ⟨a1, v1, _⟩ := byteText_spec p1 h1
  obtain ⟨a2, v2, _⟩ := byteText_spec p2 h2
  obtain ⟨a3, v3, _⟩ := byteText_spec p3 h3
  unfold Ip4ToInt
  simp only [hs, a0, a1, a2, a3]
  rw [orShift_bytes _ _ _ _ v0 v1 v2 v3]

theorem dottedQuad_spec (t : List Char) (v : Nat) (h : dottedQuad t = some v) :
    Ip4ToInt t = .ok v ∧ isIPv6 t = false ∧ v < 2 ^ 32 := by
  unfold dottedQuad at h
  split at h
  · rename_i p0 p1 p2 p3 hs
    split_ifs at h with hb
    obtain ⟨h0, h1, h2, h3⟩ := hb
    cases h
    refine ⟨Ip4ToInt_of_Split t p0 p1 p2 p3 hs h0 h1 h2 h3, ?_, ?_⟩
    · unfold isIPv6
      rw [decide_eq_false_iff_not]
      intro hmem
      rcases mem_Split '.' t ':' hmem with hc | ⟨p, hp, hcp⟩
      · revert hc; decide
      · rw [hs] at hp
        have hdig : (':' : Char).isDigit = true := by
          simp only [List.mem_cons, List.mem_singleton, List.not_mem_nil, or_false] at hp
          rcases hp with rfl | rfl | rfl | rfl
          · exact (byteText_spec _ h0).2.2 _ hcp
          · exact (byteText_spec _ h1).2.2 _ hcp
          · exact (byteText_spec _ h2).2.2 _ hcp
          · exact (byteText_spec _ h3).2.2 _ hcp
        revert hdig; decide
    · have v0 := (byteText_spec _ h0).2.1
      have v1 := (byteText_spec _ h1).2.1
      have v2 := (byteText_spec _ h2).2.1
      have v3 := (byteText_spec _ h3).2.1
      omega
  · cases h

/-- An element appended in order stays where it is. -/
theorem ensureV4Sorted_append (pre : List ip4Range) (r : ip4Range)
    (h : ∀ y, pre.getLast? = some y → y.start ≤ r.start) :
    ensureV4Sorted (pre ++ [r]) = .ret (pre ++ [r]) := by
  unfold ensureV4Sorted
  have hlast : (pre ++ [r]).getLast? = some r := by simp
  have hlen : (pre ++ [r]).length - 1 = pre.length := by simp
  rw [hlast, hlen]
  have hset : (pre ++ [r]).set pre.length r = pre ++ [r] := by
    apply List.ext_getElem?
    intro n
    rw [List.getElem?_set]
    split_ifs with h1 h2
    · subst h1; simp
    · exfalso; simp at h2
    · rfl
  rcases List.eq_nil_or_concat pre with rfl | ⟨pre1, y, hpre⟩
  · simp [ensureV4SortedLoop]
  · rw [List.concat_eq_append] at hpre
    subst hpre
    have hy : y.start ≤ r.start := h y (by simp)
    have hl : (pre1 ++ [y]).length = pre1.length + 1 := by simp
    simp only [hl] at hset ⊢
    have g1 : (pre1 ++ [y] ++ [r])[pre1.length + 1]? = some r := by
      rw [List.getElem?_append_right (by simp)]
      simp
    have g2 : (pre1 ++ [y] ++ [r])[pre1.length]? = some y := by
      rw [List.getElem?_append_left (by simp)]
      rw [List.getElem?_append_right (by simp)]
      simp
    simp only [ensureV4SortedLoop, g1, g2, ge_iff_le, hy, if_true, hset]

theorem getLast?_mem {α : Type} (l : List α) (y : α) (h : l.getLast? = some y) : y ∈ l :=
  List.mem_of_getLast?_eq_some h

/-- An in-order insert of a line for the IPv4 range `r` appends `r`. -/
theorem addRaw_lineOf (ips : LoadedIPs) (line : List Char) (r : ip4Range)
    (hl : lineOf line r) (h : ∀ y ∈ ips.arrV4, y.start ≤ r.start) :
    addRaw ips line = .ret (⟨ips.arrV4 ++ [r], ips.arrV6⟩, none) := by
  obtain ⟨s, e, hx, hs, he⟩ := hl
  obtain ⟨hs1, hs2, _⟩ := dottedQuad_spec s _ hs
  obtain ⟨he1, _, _⟩ := dottedQuad_spec e _ he
  unfold addRaw
  simp only [hx, hs2, hs1, he1, Bool.false_eq_true, if_false]
  rw [ensureV4Sorted_append ips.arrV4 r (fun y hy => h y (getLast?_mem _ _ hy))]

/-- Lines for IPv4 ranges whose starts are no smaller than the starts already stored and
ascend along the list are appended in the order of the list. -/
theorem loadLines_lineOf : ∀ (lines : List (List Char)) (rs : List ip4Range) (ips : LoadedIPs),
    List.Forall₂ lineOf lines rs →
    rs.Pairwise (fun a b => a.start ≤ b.start) →
    (∀ y ∈ ips.arrV4, ∀ r ∈ rs, y.start ≤ r.start) →
    loadLines ips lines = .ret (⟨ips.arrV4 ++ rs, ips.arrV6⟩, none) := by
  intro lines rs ips hf
  induction hf generalizing ips with
  | nil => intro _ _; simp [loadLines]
  | @cons line r lines rs hl _ ih =>
    intro hp hpre
    rw [List.pairwise_cons] at hp
    rw [loadLines, addRaw_lineOf ips line r hl (fun y hy => hpre y hy r (List.mem_cons_self _ _))]
    simp only
    rw [ih _ hp.2]
    · simp
    · intro y hy q hq
      simp only [List.mem_append, List.mem_singleton] at hy
      rcases hy with hy | rfl
      · exact hpre y hy q (List.mem_cons_of_mem _ hq)
      · exact hp.1 q hq

theorem removeQuotes_of_not_mem (s : List Char) (h : '"' ∉ s) : removeQuotes s = s := by
  unfold removeQuotes
  rw [List.filter_eq_self]
  intro c hc
  have : c ≠ '"' := fun e => h (e ▸ hc)
  simpa using this

/-- The characters of a valid dotted-quad text are decimal digits and dots. -/
theorem dottedQuad_chars (t : List Char) (v : Nat) (h : dottedQuad t = some v) :
    ∀ c ∈ t, c = '.' ∨ c.isDigit = true := by
  intro c hc
  unfold dottedQuad at h
  split at h
  · rename_i p0 p1 p2 p3 hs
    split_ifs at h with hb
    obtain ⟨h0, h1, h2, h3⟩ := hb
    rcases mem_Split '.' t c hc with hdot | ⟨p, hp, hcp⟩
    · exact Or.inl hdot
    · right
      rw [hs] at hp
      simp only [List.mem_cons, List.mem_singleton, List.not_mem_nil, or_false] at hp
      rcases hp with rfl | rfl | rfl | rfl
      · exact (byteText_spec _ h0).2.2 _ hcp
      · exact (byteText_spec _ h1).2.2 _ hcp
      · exact (byteText_spec _ h2).2.2 _ hcp
      · exact (byteText_spec _ h3).2.2 _ hcp
  · cases h

/-- A line written literally as `s,e,c`, with valid dotted-quad endpoints and a country
that holds no comma and no double quote, reads `s,e,c`. -/
theorem lineOf_literal (s e : List Char) (r : ip4Range) (hs : dottedQuad s = some r.start)
    (he : dottedQuad e = some r.end) (hc1 : ',' ∉ r.country) (hc2 : '"' ∉ r.country) :
    lineOf (s ++ ',' :: (e ++ ',' :: r.country)) r := by
  have hsc := dottedQuad_chars s _ hs
  have hec := dottedQuad_chars e _ he
  have hs1 : ',' ∉ s := fun hm => by
    rcases hsc _ hm with h | h <;> revert h <;> decide
  have hs2 : '"' ∉ s := fun hm => by
    rcases hsc _ hm with h | h <;> revert h <;> decide
  have he1 : ',' ∉ e := fun hm => by
    rcases hec _ hm with h | h <;> revert h <;> decide
  have he2 : '"' ∉ e := fun hm => by
    rcases hec _ hm with h | h <;> revert h <;> decide
  refine ⟨s, e, ?_, hs, he⟩
  have hq : removeQuotes (s ++ ',' :: (e ++ ',' :: r.country)) =
      s ++ ',' :: (e ++ ',' :: r.country) := by
    apply removeQuotes_of_not_mem
    simp only [List.mem_append, List.mem_cons, not_or]
    exact ⟨hs2, by decide, he2, by decide, hc2⟩
  rw [hq]
  unfold extract
  rw [Split_append_sep ',' _ s hs1, Split_append_sep ',' _ e he1,
    Split_of_not_mem ',' _ hc1]

theorem shiftCount_of_le (i : Nat) (h : i ≤ 7) : shiftCount i = (7 - i) * 16 := by
  unfold shiftCount
  omega

theorem Int_lor_natCast (a b : Nat) : Int.lor (a : Int) (b : Int) = ((a ||| b : Nat) : Int) := rfl

/-- At the positions 0..7 the shift of a non-negative value returns the product. -/
theorem Lsh_natCast (v i : Nat) (h : i ≤ 7) :
    Lsh (v : Int) (shiftCount i) = .ret ((v * 2 ^ ((7 - i) * 16) : Nat) : Int) := by
  rw [shiftCount_of_le i h]
  unfold Lsh
  have hn : ¬ ((7 - i) * 16 ≥ 2 ^ 52) := by omega
  by_cases hv : (v : Int) = 0
  · have hv0 : v = 0 := by exact_mod_cast hv
    subst hv0
    simp
  · rw [if_neg hv, if_neg hn]
    push_cast
    rfl

/-- The loop of `Ip6ToInt` on segments that parse as non-negative numbers, at most
eight positions in all, ORs the shifted values into a non-negative accumulator. -/
theorem Ip6ToIntLoop_ok : ∀ (ps : List (List Char)) (vals : List Nat) (i a : Nat),
    List.Forall₂ (fun (p : List Char) (v : Nat) => ParseInt p 16 = .ok (v : Int)) ps vals →
    i + ps.length ≤ 8 →
    Ip6ToIntLoop ps i (a : Int) = .ret (((a ||| orGroups vals i : Nat) : Int), none) := by
  intro ps vals i a hf
  induction hf generalizing i a with
  | nil => intro _; simp [Ip6ToIntLoop, orGroups]
  | @cons p v ps vals hp _ ih =>
    intro hlen
    simp only [List.length_cons] at hlen
    have hi : i ≤ 7 := by omega
    have hmod : (i + 1) % 2 ^ 64 = i + 1 := Nat.mod_eq_of_lt (by omega)
    rw [Ip6ToIntLoop]
    simp only [hp, Lsh_natCast v i hi, hmod]
    rw [Int_lor_natCast, ih (i + 1) _ (by omega), orGroups, Nat.lor_assoc]

/-- From a zero accumulator, on a text whose non-empty segments parse as non-negative
numbers, at most eight of them, `Ip6ToInt` leaves the OR of the shifted values. -/
theorem Ip6ToInt_ok (ip : List Char) (vals : List Nat)
    (hf : List.Forall₂ (fun (p : List Char) (v : Nat) => ParseInt p 16 = .ok (v : Int))
      ((Split ip ':').filter (fun part => part ≠ [])) vals)
    (hlen : vals.length ≤ 8) :
    Ip6ToInt ip 0 = .ret (((orGroups vals 0 : Nat) : Int), none) := by
  unfold Ip6ToInt
  simp only
  split_ifs with h0
  · rw [List.length_eq_zero] at h0
    rw [h0] at hf
    cases hf
    simp [orGroups]
  · have h := Ip6ToIntLoop_ok _ vals 0 0 hf (by rw [hf.length_eq]; omega)
    simpa using h

theorem orGroups_eq_groupsValue : ∀ (vs : List Nat) (i : Nat), (∀ v ∈ vs, v < 2 ^ 16) →
    i + vs.length ≤ 8 →
    orGroups vs i = groupsValue vs i ∧ groupsValue vs i < 2 ^ (16 * (8 - i)) := by
  intro vs
  induction vs with
  | nil => intro i _ _; simp [orGroups, groupsValue]
  | cons v vs ih =>
    intro i hv hlen
    simp only [List.length_cons] at hlen
    obtain ⟨e, hb⟩ := ih (i + 1) (fun w hw => hv w (List.mem_cons_of_mem _ hw)) (by omega)
    have hv16 : v < 2 ^ 16 := hv v (List.mem_cons_self _ _)
    have hk : 16 * (8 - (i + 1)) = 16 * (7 - i) := by omega
    have hk2 : (7 - i) * 16 = 16 * (7 - i) := by omega
    have hk3 : 16 * (8 - i) = 16 + 16 * (7 - i) := by omega
    rw [hk] at hb
    rw [orGroups, groupsValue, e, hk2, hk3]
    constructor
    · rw [Nat.mul_comm v, Nat.mul_add_lt_is_or hb]
    · rw [Nat.pow_add]
      calc v * 2 ^ (16 * (7 - i)) + groupsValue vs (i + 1)
          < v * 2 ^ (16 * (7 - i)) + 2 ^ (16 * (7 - i)) := by omega
        _ = (v + 1) * 2 ^ (16 * (7 - i)) := by ring
        _ ≤ 2 ^ 16 * 2 ^ (16 * (7 - i)) := Nat.mul_le_mul_right _ hv16

theorem digitVal_of_hexDigitValue (c : Char) (d : Nat) (h : hexDigitValue c = some d) :
    digitVal c = some d ∧ d < 16 := by
  unfold hexDigitValue at h
  unfold digitVal lower
  simp only at h ⊢
  generalize c.toNat = b at h ⊢
  split_ifs at h with h1 h2 h3
  · cases h
    exact ⟨by simp [h1], by omega⟩
  · cases h
    obtain ⟨h2a, h2b⟩ := h2
    interval_cases b <;> simp
  · cases h
    obtain ⟨h3a, h3b⟩ := h3
    interval_cases b <;> simp

theorem foldl_hex_lt (g : Char → Nat) (hg : ∀ c, g c < 16) :
    ∀ (cs : List Char) (n : Nat),
      cs.foldl (fun n c => n * 16 + g c) n < (n + 1) * 16 ^ cs.length := by
  intro cs
  induction cs with
  | nil => intro n; simp
  | cons c cs ih =>
    intro n
    simp only [List.foldl_cons, List.length_cons]
    have h1 := ih (n * 16 + g c)
    have h2 : n * 16 + g c + 1 ≤ (n + 1) * 16 := by have := hg c; omega
    calc _ < (n * 16 + g c + 1) * 16 ^ cs.length := h1
      _ ≤ ((n + 1) * 16) * 16 ^ cs.length := Nat.mul_le_mul_right _ h2
      _ = (n + 1) * 16 ^ (cs.length + 1) := by ring

theorem hexDigitValue_getD_lt (c : Char) : (hexDigitValue c).getD 0 < 16 := by
  cases h : hexDigitValue c with
  | none => simp
  | some d => simpa using (digitVal_of_hexDigitValue c d h).2

/-- Go `ParseInt` in base 16 reads a group of one to four hexadecimal digits as its
value, which is below `2 ^ 16`. -/
theorem ParseInt_hexGroup (g : List Char) (h : hexGroup g = true) :
    ParseInt g 16 = .ok (hexValue g : Int) ∧ hexValue g < 2 ^ 16 := by
  simp only [hexGroup, Bool.and_eq_true, decide_eq_true_eq, List.all_eq_true] at h
  obtain ⟨⟨hl1, hl4⟩, hd⟩ := h
  have hlt : hexValue g < 2 ^ 16 := by
    have h1 := foldl_hex_lt (fun c => (hexDigitValue c).getD 0) hexDigitValue_getD_lt g 0
    have h2 : 16 ^ g.length ≤ 16 ^ 4 := Nat.pow_le_pow_right (by omega) hl4
    show hexValue g < 2 ^ 16
    unfold hexValue
    omega
  refine ⟨?_, hlt⟩
  have hall : ∀ c ∈ g, digitVal c = some ((hexDigitValue c).getD 0) ∧
      (hexDigitValue c).getD 0 < 16 := by
    intro c hc
    have := hd c hc
    cases hv : hexDigitValue c with
    | none => simp [hv] at this
    | some d => simpa using digitVal_of_hexDigitValue c d hv
  have hloop : ParseUintLoop 16 g 0 = .ok (hexValue g) :=
    ParseUintLoop_ok 16 (by omega) (fun c => (hexDigitValue c).getD 0) g 0 hall
      (by show hexValue g ≤ maxUint64; unfold maxUint64; omega)
  cases g with
  | nil => simp at hl1
  | cons c cs =>
    have hc := hd c (List.mem_cons_self _ _)
    have hp : c ≠ '+' := by rintro rfl; revert hc; decide
    have hm : c ≠ '-' := by rintro rfl; revert hc; decide
    have hv2 : ¬ (2 ^ 63 ≤ hexValue (c :: cs)) := by omega
    unfold ParseInt
    simp only [hp, hm, or_self, if_false, decide_False, ParseUint, hloop]
    simp only [hv2, and_false, false_and, if_false, Bool.false_eq_true, ge_iff_le]

theorem not_colon_of_hexGroup (g : List Char) (h : hexGroup g = true) :
    g ≠ [] ∧ ':' ∉ g := by
  simp only [hexGroup, Bool.and_eq_true, decide_eq_true_eq, List.all_eq_true] at h
  obtain ⟨⟨hl1, _⟩, hd⟩ := h
  constructor
  · rintro rfl; simp at hl1
  · intro hmem
    have := hd _ hmem
    revert this; decide

/-- The non-empty segments of groups joined with ':' are the groups. -/
theorem parts_joinGroups : ∀ gs : List (List Char), (∀ g ∈ gs, g ≠ [] ∧ ':' ∉ g) →
    (Split (joinGroups gs) ':').filter (fun part => part ≠ []) = gs := by
  intro gs
  induction gs with
  | nil => intro _; simp [joinGroups, Split]
  | cons g gs ih =>
    intro h
    obtain ⟨hne, hc⟩ := h g (List.mem_cons_self _ _)
    cases gs with
    | nil => simp [joinGroups, Split_of_not_mem ':' g hc, hne]
    | cons g1 gs =>
      rw [joinGroups, Split_append_sep ':' _ g hc]
      simp only [List.filter_cons, hne, ne_eq, not_false_eq_true, decide_True, if_true]
      rw [ih (fun q hq => h q (List.mem_cons_of_mem _ hq))]

/-- The non-empty segments of groups joined with ':' and followed by "::" are the
groups. -/
theorem parts_joinGroups_elided : ∀ gs : List (List Char), (∀ g ∈ gs, g ≠ [] ∧ ':' ∉ g) →
    (Split (joinGroups gs ++ [':', ':']) ':').filter (fun part => part ≠ []) = gs := by
  intro gs
  induction gs with
  | nil => intro _; simp [joinGroups, Split]
  | cons g gs ih =>
    intro h
    obtain ⟨hne, hc⟩ := h g (List.mem_cons_self _ _)
    cases gs with
    | nil =>
      rw [joinGroups]
      show List.filter _ (Split (g ++ ':' :: [':']) ':') = [g]
      rw [Split_append_sep ':' _ g hc]
      simp [Split, hne]
    | cons g1 gs =>
      rw [joinGroups, List.append_assoc, List.cons_append, Split_append_sep ':' _ g hc]
      simp only [List.filter_cons, hne, ne_eq, not_false_eq_true, decide_True, if_true]
      rw [ih (fun q hq => h q (List.mem_cons_of_mem _ hq))]

theorem groupsValue_append_zeros : ∀ (vs : List Nat) (k i : Nat),
    groupsValue (vs ++ List.replicate k 0) i = groupsValue vs i := by
  intro vs
  induction vs with
  | nil =>
    intro k
    induction k with
    | zero => intro i; simp [groupsValue]
    | succ k ihk =>
      intro i
      have := ihk (i + 1)
      simp only [List.nil_append, groupsValue] at this
      simp [List.replicate_succ, groupsValue, this]
  | cons v vs ih => intro k i; simp [groupsValue, ih]

theorem Forall₂_hexGroups : ∀ gs : List (List Char), (∀ g ∈ gs, hexGroup g = true) →
    List.Forall₂ (fun (p : List Char) (v : Nat) => ParseInt p 16 = .ok (v : Int)) gs
      (gs.map hexValue) := by
  intro gs
  induction gs with
  | nil => intro _; exact List.Forall₂.nil
  | cons g gs ih =>
    intro h
    exact List.Forall₂.cons (ParseInt_hexGroup g (h g (List.mem_cons_self _ _))).1
      (ih (fun q hq => h q (List.mem_cons_of_mem _ hq)))

/-- On a text whose non-empty segments are at most eight hexadecimal groups `gs`,
`Ip6ToInt` yields the standard value of the groups placed from position 0. -/
theorem Ip6ToInt_groups (ip : List Char) (gs : List (List Char))
    (hparts : (Split ip ':').filter (fun part => part ≠ []) = gs)
    (hg : ∀ g ∈ gs, hexGroup g = true) (hlen : gs.length ≤ 8) :
    Ip6ToInt ip 0 = .ret (((groupsValue (gs.map hexValue) 0 : Nat) : Int), none) := by
  have h := Ip6ToInt_ok ip (gs.map hexValue) (by rw [hparts]; exact Forall₂_hexGroups gs hg)
    (by simpa using hlen)
  rw [h]
  have := orGroups_eq_groupsValue (gs.map hexValue) 0
    (by
      intro v hv
      obtain ⟨g, hgm, rfl⟩ := List.mem_map.mp hv
      exact (ParseInt_hexGroup g (hg g hgm)).2)
    (by simpa using hlen)
  rw [this.1]

theorem ParseUintLoop_error (base : Nat) : ∀ (cs : List Char) (n : Nat) (e : GoError),
    ParseUintLoop base cs n = .error e → e = .SyntaxErr ∨ e = .RangeErr := by
  intro cs
  induction cs with
  | nil => intro n e h; simp [ParseUintLoop] at h
  | cons c cs ih =>
    intro n e h
    rw [ParseUintLoop] at h
    split at h
    · cases h; exact Or.inl rfl
    · split_ifs at h
      · cases h; exact Or.inl rfl
      · cases h; exact Or.inr rfl
      · cases h; exact Or.inr rfl
      · exact ih _ e h

theorem ParseInt_error (s : List Char) (base : Nat) (e : GoError)
    (h : ParseInt s base = .error e) : e = .SyntaxErr ∨ e = .RangeErr := by
  unfold ParseInt at h
  split at h
  · cases h; exact Or.inl rfl
  · simp only at h
    split at h
    · rename_i e1 hu
      cases h
      unfold ParseUint at hu
      split at hu
      · cases hu; exact Or.inl rfl
      · exact ParseUintLoop_error _ _ _ _ hu
    · split_ifs at h
      · cases h; exact Or.inr rfl
      · cases h; exact Or.inr rfl

/-- Function `Ip4ToInt` fails with its own sentinel error or with an error of `Atoi`. -/
theorem Ip4ToInt_error (ip : List Char) (e : GoError) (h : Ip4ToInt ip = .error e) :
    e = .ErrInvalidIPv4 ∨ e = .SyntaxErr ∨ e = .RangeErr := by
  unfold Ip4ToInt Atoi at h
  split at h
  · split at h
    · rename_i hp; cases h; exact Or.inr (ParseInt_error _ _ _ hp)
    · split at h
      · rename_i hp; cases h; exact Or.inr (ParseInt_error _ _ _ hp)
      · split at h
        · rename_i hp; cases h; exact Or.inr (ParseInt_error _ _ _ hp)
        · split at h
          · rename_i hp; cases h; exact Or.inr (ParseInt_error _ _ _ hp)
          · cases h
  · cases h; exact Or.inl rfl

theorem Ip6ToIntLoop_error : ∀ (ps : List (List Char)) (i : Nat) (acc v : Int) (e : GoError),
    Ip6ToIntLoop ps i acc = .ret (v, some e) → e = .SyntaxErr ∨ e = .RangeErr := by
  intro ps
  induction ps with
  | nil => intro i acc v e h; simp [Ip6ToIntLoop] at h
  | cons p ps ih =>
    intro i acc v e h
    rw [Ip6ToIntLoop] at h
    split at h
    · rename_i e1 hp
      simp only [Exec.ret.injEq, Prod.mk.injEq, Option.some.injEq] at h
      rw [← h.2]
      exact ParseInt_error _ _ _ hp
    · split at h
      · exact ih _ _ v e h
      · cases h
      · cases h

/-- Function `Ip6ToInt` fails only with an error of `ParseInt`. -/
theorem Ip6ToInt_error (ip : List Char) (acc v : Int) (e : GoError)
    (h : Ip6ToInt ip acc = .ret (v, some e)) : e = .SyntaxErr ∨ e = .RangeErr := by
  have hdef : Ip6ToInt ip acc =
      if ((Split ip ':').filter (fun part => part ≠ [])).length = 0 then .ret (acc, none)
      else Ip6ToIntLoop ((Split ip ':').filter (fun part => part ≠ [])) 0 acc := rfl
  rw [hdef] at h
  by_cases h0 : ((Split ip ':').filter (fun part => part ≠ [])).length = 0
  · rw [if_pos h0] at h
    cases h
  · rw [if_neg h0] at h
    exact Ip6ToIntLoop_error _ _ _ v e h

/-- The outcomes of `Ip6ToInt`: it returns an accumulator without an error, or it
returns an error, or it panics; it never runs out of fuel. -/
theorem Ip6ToInt_outcomes (ip : List Char) (acc : Int) :
    (∃ v, Ip6ToInt ip acc = .ret (v, none)) ∨ (∃ v e, Ip6ToInt ip acc = .ret (v, some e)) ∨
      Ip6ToInt ip acc = .panic := by
  have hloop : ∀ (ps : List (List Char)) (i : Nat) (a : Int),
      (∃ v, Ip6ToIntLoop ps i a = .ret (v, none)) ∨
        (∃ v e, Ip6ToIntLoop ps i a = .ret (v, some e)) ∨ Ip6ToIntLoop ps i a = .panic := by
    intro ps
    induction ps with
    | nil => intro i a; exact Or.inl ⟨a, rfl⟩
    | cons p ps ih =>
      intro i a
      rw [Ip6ToIntLoop]
      cases hp : ParseInt p 16 with
      | error e => exact Or.inr (Or.inl ⟨a, e, rfl⟩)
      | ok n =>
        simp only
        have hl : (∃ b, Lsh n (shiftCount i) = .ret b) ∨ Lsh n (shiftCount i) = .panic := by
          unfold Lsh
          split_ifs
          · exact Or.inl ⟨_, rfl⟩
          · exact Or.inr rfl
          · exact Or.inl ⟨_, rfl⟩
        rcases hl with ⟨b, hb⟩ | hb
        · rw [hb]; exact ih _ _
        · rw [hb]; exact Or.inr (Or.inr rfl)
  unfold Ip6ToInt
  simp only
  split_ifs
  · exact Or.inl ⟨acc, rfl⟩
  · exact hloop _ _ _

theorem extract_error_iff (line : List Char) :
    (∃ e, extract line = .error e) ↔ (Split line ',').length ≠ 3 := by
  unfold extract
  constructor
  · rintro ⟨e, h⟩
    split at h
    · cases h
    · rename_i hne
      intro hlen
      match hs : Split line ',', hlen with
      | [a, b, c], _ => exact hne a b c hs
  · intro hlen
    split
    · rename_i p0 p1 p2 hs
      rw [hs] at hlen
      exact absurd rfl hlen
    · exact ⟨_, rfl⟩

theorem extract_error_kind (line : List Char) (e : GoError) (h : extract line = .error e) :
    e = .ErrInvalidLine := by
  unfold extract at h
  split at h
  · cases h
  · cases h; rfl

/-- The error an insert returns after the line has split into three fields is not
`ErrInvalidLine`. -/
theorem addRaw_error_of_fields (ips ips1 : LoadedIPs) (line : List Char)
    (f : List Char × List Char × List Char) (hx : extract (removeQuotes line) = .ok f)
    (e : GoError) (h : addRaw ips line = .ret (ips1, some e)) :
    e = .ErrInvalidIPv4 ∨ e = .SyntaxErr ∨ e = .RangeErr := by
  obtain ⟨startIP, endIP, country⟩ := f
  unfold addRaw at h
  simp only [hx] at h
  split_ifs at h with h6
  · cases hs : Ip6ToInt startIP 0 with
    | panic => simp [hs] at h
    | timeout => simp [hs] at h
    | ret rs =>
      obtain ⟨vs, _ | es⟩ := rs
      · cases he : Ip6ToInt endIP 0 with
        | panic => simp [hs, he] at h
        | timeout => simp [hs, he] at h
        | ret re =>
          obtain ⟨ve, _ | ee⟩ := re
          · simp only [hs, he] at h
            split at h <;> simp at h
          · simp only [hs, he, Exec.ret.injEq, Prod.mk.injEq, Option.some.injEq] at h
            rw [← h.2]
            exact Or.inr (Ip6ToInt_error endIP 0 ve ee he)
      · simp only [hs, Exec.ret.injEq, Prod.mk.injEq, Option.some.injEq] at h
        rw [← h.2]
        exact Or.inr (Ip6ToInt_error startIP 0 vs es hs)
  · cases hs : Ip4ToInt startIP with
    | error es =>
      simp only [hs, Exec.ret.injEq, Prod.mk.injEq, Option.some.injEq] at h
      rw [← h.2]
      exact Ip4ToInt_error startIP es hs
    | ok vs =>
      cases he : Ip4ToInt endIP with
      | error ee =>
        simp only [hs, he, Exec.ret.injEq, Prod.mk.injEq, Option.some.injEq] at h
        rw [← h.2]
        exact Ip4ToInt_error endIP ee he
      | ok ve =>
        simp only [hs, he] at h
        split at h <;> simp at h

theorem sampleRanges_sorted : sampleRanges.Pairwise (fun a b => a.start ≤ b.start) := by
  simp [sampleRanges]

theorem sampleRanges_disjoint : sampleRanges.Pairwise (fun a b =>
    ∀ k : Nat, ¬ (a.start ≤ k ∧ k ≤ a.end ∧ b.start ≤ k ∧ k ≤ b.end)) := by
  simp only [sampleRanges, List.pairwise_cons, List.mem_cons, List.mem_singleton,
    List.not_mem_nil, or_false, forall_eq_or_imp, forall_eq, List.Pairwise.nil, and_true,
    false_implies, implies_true]
  refine ⟨⟨?_, ?_⟩, ?_⟩ <;> intro k <;> omega

theorem sampleLines_lineOf : List.Forall₂ lineOf sampleLines sampleRanges :=
  List.Forall₂.cons ⟨"0.0.0.0".toList, "0.255.255.255".toList, rfl, rfl, rfl⟩
    (List.Forall₂.cons ⟨"50.97.196.0".toList, "50.97.197.255".toList, rfl, rfl, rfl⟩
      (List.Forall₂.cons ⟨"50.97.198.0".toList, "50.97.199.255".toList, rfl, rfl, rfl⟩
        List.Forall₂.nil))

theorem not_dot_of_byteText (p : List Char) (h : byteText p = true) : '.' ∉ p := by
  intro hmem
  have := (byteText_spec p h).2.2 _ hmem
  revert this; decide

theorem Split_quad (p0 p1 p2 p3 : List Char) (h0 : byteText p0 = true)
    (h1 : byteText p1 = true) (h2 : byteText p2 = true) (h3 : byteText p3 = true) :
    Split (p0 ++ '.' :: (p1 ++ '.' :: (p2 ++ '.' :: p3))) '.' = [p0, p1, p2, p3] := by
  rw [Split_append_sep '.' _ p0 (not_dot_of_byteText p0 h0),
    Split_append_sep '.' _ p1 (not_dot_of_byteText p1 h1),
    Split_append_sep '.' _ p2 (not_dot_of_byteText p2 h2),
    Split_of_not_mem '.' p3 (not_dot_of_byteText p3 h3)]

theorem repr_byteText : ∀ b : Nat, b < 256 →
    (byteText (Nat.repr b).toList = true ∧ decimalValue (Nat.repr b).toList = b) := by
  decide

/-- The loop of `ensureV4Sorted`, entered at the index `front.length` of the slice
`front ++ e :: back`, stops at an index that splits `front` in two and leaves the
elements of `front` after that index shifted up by one place. -/
theorem ensureV4SortedLoop_shift : ∀ (i : Nat) (front : List ip4Range) (e : ip4Range)
    (back : List ip4Range), front.length = i →
    ∃ (a1 a2 : List ip4Range) (e1 : ip4Range), front = a1 ++ a2 ∧
      ensureV4SortedLoop i (front ++ e :: back) = .ret (a1 ++ e1 :: (a2 ++ back), a1.length) := by
  intro i
  induction i with
  | zero =>
    intro front e back hlen
    have hf : front = [] := List.length_eq_zero.mp hlen
    subst hf
    exact ⟨[], [], e, rfl, by simp [ensureV4SortedLoop]⟩
  | succ i ih =>
    intro front e back hlen
    rcases List.eq_nil_or_concat front with hnil | ⟨f1, y, hf⟩
    · subst hnil; simp at hlen
    · rw [List.concat_eq_append] at hf
      subst hf
      have hl1 : f1.length = i := by simpa using hlen
      have g1 : (f1 ++ [y] ++ e :: back)[i + 1]? = some e := by
        rw [List.getElem?_append_right (by simp [hl1])]
        simp [hl1]
      have g2 : (f1 ++ [y] ++ e :: back)[i]? = some y := by
        rw [List.getElem?_append_left (by simp [hl1])]
        rw [List.getElem?_append_right (by simp [hl1])]
        simp [hl1]
      by_cases hstop : e.start ≥ y.start
      · refine ⟨f1 ++ [y], [], e, by simp, ?_⟩
        simp only [ensureV4SortedLoop, g1, g2, hstop, if_true]
        simp [hl1]
      · have hset : (f1 ++ [y] ++ e :: back).set (i + 1) y = f1 ++ y :: (y :: back) := by
          rw [List.set_append_right _ _ (by simp [hl1])]
          simp [hl1]
        obtain ⟨a1, a2, e1, hsplit, hres⟩ := ih f1 y (y :: back) hl1
        refine ⟨a1, a2 ++ [y], e1, by rw [hsplit]; simp, ?_⟩
        simp only [ensureV4SortedLoop, g1, g2, hstop, if_false, hset, hres]
        simp

/-- The insertion step takes the last element of the slice out and puts it back
somewhere among the others, which keep their order. -/
theorem ensureV4Sorted_shift (pre : List ip4Range) (x : ip4Range) :
    ∃ a1 a2 : List ip4Range, pre = a1 ++ a2 ∧
      ensureV4Sorted (pre ++ [x]) = .ret (a1 ++ x :: a2) := by
  obtain ⟨a1, a2, e1, hsplit, hres⟩ := ensureV4SortedLoop_shift pre.length pre x [] rfl
  refine ⟨a1, a2, hsplit, ?_⟩
  unfold ensureV4Sorted
  have hlast : (pre ++ [x]).getLast? = some x := by simp
  have hlen : (pre ++ [x]).length - 1 = pre.length := by simp
  rw [hlast, hlen]
  simp only [hres, List.append_nil]
  rw [List.set_append_right _ _ (le_refl _)]
  simp

/-- The loop of `ensureV6Sorted`, entered at the index `front.length` of the slice
`front ++ e :: back`, stops at an index that splits `front` in two and leaves the
elements of `front` after that index shifted up by one place. -/
theorem ensureV6SortedLoop_shift : ∀ (i : Nat) (front : List ip6Range) (e : ip6Range)
    (back : List ip6Range), front.length = i →
    ∃ (a1 a2 : List ip6Range) (e1 : ip6Range), front = a1 ++ a2 ∧
      ensureV6SortedLoop i (front ++ e :: back) = .ret (a1 ++ e1 :: (a2 ++ back), a1.length) := by
  intro i
  induction i with
  | zero =>
    intro front e back hlen
    have hf : front = [] := List.length_eq_zero.mp hlen
    subst hf
    exact ⟨[], [], e, rfl, by simp [ensureV6SortedLoop]⟩
  | succ i ih =>
    intro front e back hlen
    rcases List.eq_nil_or_concat front with hnil | ⟨f1, y, hf⟩
    · subst hnil; simp at hlen
    · rw [List.concat_eq_append] at hf
      subst hf
      have hl1 : f1.length = i := by simpa using hlen
      have g1 : (f1 ++ [y] ++ e :: back)[i + 1]? = some e := by
        rw [List.getElem?_append_right (by simp [hl1])]
        simp [hl1]
      have g2 : (f1 ++ [y] ++ e :: back)[i]? = some y := by
        rw [List.getElem?_append_left (by simp [hl1])]
        rw [List.getElem?_append_right (by simp [hl1])]
        simp [hl1]
      by_cases hstop : Cmp e.start y.start ≥ 0
      · refine ⟨f1 ++ [y], [], e, by simp, ?_⟩
        simp only [ensureV6SortedLoop, g1, g2, hstop, if_true]
        simp [hl1]
      · have hset : (f1 ++ [y] ++ e :: back).set (i + 1) y = f1 ++ y :: (y :: back) := by
          rw [List.set_append_right _ _ (by simp [hl1])]
          simp [hl1]
        obtain ⟨a1, a2, e1, hsplit, hres⟩ := ih f1 y (y :: back) hl1
        refine ⟨a1, a2 ++ [y], e1, by rw [hsplit]; simp, ?_⟩
        simp only [ensureV6SortedLoop, g1, g2, hstop, if_false, hset, hres]
        simp

/-- The insertion step on the IPv6 slice takes the last element of the slice out and puts it back
somewhere among the others, which keep their order. -/
theorem ensureV6Sorted_shift (pre : List ip6Range) (x : ip6Range) :
    ∃ a1 a2 : List ip6Range, pre = a1 ++ a2 ∧
      ensureV6Sorted (pre ++ [x]) = .ret (a1 ++ x :: a2) := by
  obtain ⟨a1, a2, e1, hsplit, hres⟩ := ensureV6SortedLoop_shift pre.length pre x [] rfl
  refine ⟨a1, a2, hsplit, ?_⟩
  unfold ensureV6Sorted
  have hlast : (pre ++ [x]).getLast? = some x := by simp
  have hlen : (pre ++ [x]).length - 1 = pre.length := by simp
  rw [hlast, hlen]
  simp only [hres, List.append_nil]
  rw [List.set_append_right _ _ (le_refl _)]
  simp

theorem perm_of_insert_at {α : Type} (a1 a2 : List α) (x : α) :
    List.Perm (a1 ++ x :: a2) (a1 ++ a2 ++ [x]) := by
  have h1 : List.Perm (a1 ++ x :: a2) (x :: (a1 ++ a2)) := List.perm_middle
  have h2 : List.Perm (x :: (a1 ++ a2)) (a1 ++ a2 ++ [x]) :=
    (List.perm_append_singleton x (a1 ++ a2)).symm
  exact h1.trans h2

theorem sublist_of_insert_at {α : Type} (a1 a2 : List α) (x : α) :
    List.Sublist (a1 ++ a2) (a1 ++ x :: a2) :=
  List.Sublist.append (List.Sublist.refl a1) (List.sublist_cons_self x a2)

/-- A successful insert has split the line into three fields, parsed both endpoints
with the parser of the start's family, appended the range of the line to the slice of
that family and run the insertion step on it; the other slice is left alone. -/
theorem addRaw_ok_cases (ips ips1 : LoadedIPs) (line : List Char)
    (hadd : addRaw ips line = .ret (ips1, none)) :
    ∃ startIP endIP country : List Char,
      extract (removeQuotes line) = .ok (startIP, endIP, country) ∧
      ((isIPv6 startIP = false ∧ ∃ (s e : Nat) (arr : List ip4Range),
          Ip4ToInt startIP = .ok s ∧ Ip4ToInt endIP = .ok e ∧
          ensureV4Sorted (ips.arrV4 ++ [⟨s, e, country⟩]) = .ret arr ∧
          ips1 = ⟨arr, ips.arrV6⟩) ∨
        (isIPv6 startIP = true ∧ ∃ (s e : Int) (arr : List ip6Range),
          Ip6ToInt startIP 0 = .ret (s, none) ∧ Ip6ToInt endIP 0 = .ret (e, none) ∧
          ensureV6Sorted (ips.arrV6 ++ [⟨s, e, country⟩]) = .ret arr ∧
          ips1 = ⟨ips.arrV4, arr⟩)) := by
  unfold addRaw at hadd
  cases hx : extract (removeQuotes line) with
  | error e => simp [hx] at hadd
  | ok f =>
    obtain ⟨startIP, endIP, country⟩ := f
    refine ⟨startIP, endIP, country, rfl, ?_⟩
    simp only [hx] at hadd
    by_cases h6 : isIPv6 startIP = true
    · simp only [h6, if_true] at hadd
      right
      refine ⟨h6, ?_⟩
      cases hs : Ip6ToInt startIP 0 with
      | panic => simp [hs] at hadd
      | timeout => simp [hs] at hadd
      | ret rs =>
        obtain ⟨vs, _ | es⟩ := rs
        · cases he : Ip6ToInt endIP 0 with
          | panic => simp [hs, he] at hadd
          | timeout => simp [hs, he] at hadd
          | ret re =>
            obtain ⟨ve, _ | ee⟩ := re
            · simp only [hs, he] at hadd
              cases hen : ensureV6Sorted (ips.arrV6 ++ [⟨vs, ve, country⟩]) with
              | ret arr =>
                simp only [hen, Exec.ret.injEq, Prod.mk.injEq, and_true] at hadd
                exact ⟨vs, ve, arr, rfl, rfl, hen, hadd.symm⟩
              | panic => simp [hen] at hadd
              | timeout => simp [hen] at hadd
            · simp [hs, he] at hadd
        · simp [hs] at hadd
    · have h6f : isIPv6 startIP = false := by simpa using h6
      simp only [h6, if_false, Bool.false_eq_true] at hadd
      left
      refine ⟨h6f, ?_⟩
      cases hs : Ip4ToInt startIP with
      | error es => simp [hs] at hadd
      | ok vs =>
        cases he : Ip4ToInt endIP with
        | error ee => simp [hs, he] at hadd
        | ok ve =>
          simp only [hs, he] at hadd
          cases hen : ensureV4Sorted (ips.arrV4 ++ [⟨vs, ve, country⟩]) with
          | ret arr =>
            simp only [hen, Exec.ret.injEq, Prod.mk.injEq, and_true] at hadd
            exact ⟨vs, ve, arr, rfl, rfl, hen, hadd.symm⟩
          | panic => simp [hen] at hadd
          | timeout => simp [hen] at hadd

/-- Whenever the parser selected by the classification returns, with a value or with an
error, `GetCountry` returns. -/
theorem GetCountry_returns (ips : LoadedIPs) (ip : List Char)
    (h : isIPv6 ip = false ∨ ∃ r, Ip6ToInt ip 0 = .ret r) :
    ∃ c, GetCountry ips ip = .ret c := by
  unfold GetCountry
  by_cases h6 : isIPv6 ip = true
  · simp only [h6, if_true]
    rcases h with h | ⟨r, hr⟩
    · rw [h6] at h; cases h
    · obtain ⟨v, _ | e⟩ := r
      · obtain ⟨i, hi, hres⟩ := bigBinarySearch_sound ips.arrV6 v
        simp only [hr, hi]
        rcases hres with rfl | ⟨h0, _, r, hr, _⟩
        · exact ⟨[], by simp⟩
        · have h1 : ¬ i = -1 := by omega
          have h2 : ¬ i < 0 := by omega
          exact ⟨r.country, by simp [h1, h2, hr]⟩
      · exact ⟨[], by simp only [hr]⟩
  · simp only [h6, if_false, Bool.false_eq_true]
    cases hv : Ip4ToInt ip with
    | error e => exact ⟨[], rfl⟩
    | ok v =>
      obtain ⟨i, hi, hres⟩ := binarySearch_sound ips.arrV4 v
      simp only [hi]
      rcases hres with rfl | ⟨h0, _, r, hr, _⟩
      · exact ⟨[], by simp⟩
      · have h1 : ¬ i = -1 := by omega
        have h2 : ¬ i < 0 := by omega
        exact ⟨r.country, by simp [h1, h2, hr]⟩

/-- From the ninth non-empty group on the shift count has wrapped: a zero group is
still accepted, a non-zero group panics, before any later segment is parsed. -/
theorem Ip6ToInt_ninth_group :
    shiftCount 8 = 2 ^ 64 - 16 ∧
    Ip6ToInt "1:2:3:4:5:6:7:8:0".toList 0 = .ret (0x00010002000300040005000600070008, none) ∧
    Ip6ToInt "1:2:3:4:5:6:7:8:9".toList 0 = .panic ∧
    Ip6ToInt "1:2:3:4:5:6:7:8:9:g".toList 0 = .panic ∧
    GetCountry LoadedIPs.empty "1:2:3:4:5:6:7:8:9".toList = .panic :=
  ⟨by rfl, by rfl, by rfl, by rfl, by rfl⟩

/-- A panic of the parser is a panic of `GetCountry`. -/
theorem GetCountry_panics (ips : LoadedIPs) (ip : List Char) (h6 : isIPv6 ip = true)
    (hp : Ip6ToInt ip 0 = .panic) : GetCountry ips ip = .panic := by
  unfold GetCountry
  simp only [h6, if_true, hp]

/-- A run of goroutines with indices inside the slice, on addresses for which
`GetCountry` returns, returns; the slots of the goroutines that ran hold their lookups,
the other slots are untouched. -/
theorem GetCountryMultiRun_spec (ips : LoadedIPs) (addrs : List (List Char))
    (hret : ∀ a ∈ addrs, ∃ c, GetCountry ips a = .ret c) :
    ∀ (schedule : List Nat) (answers : List (List Char)),
      (∀ k ∈ schedule, k < addrs.length) → answers.length = addrs.length →
      ∃ res, GetCountryMultiRun ips addrs schedule answers = .ret res ∧
        res.length = addrs.length ∧
        ∀ k : Nat,
          (k ∈ schedule → ∀ a, addrs[k]? = some a →
            ∃ c, res[k]? = some c ∧ GetCountry ips a = .ret c) ∧
          (k ∉ schedule → res[k]? = answers[k]?) := by
  intro schedule
  induction schedule with
  | nil =>
    intro answers _ hlen
    exact ⟨answers, rfl, hlen, fun k => ⟨fun h => absurd h (List.not_mem_nil k), fun _ => rfl⟩⟩
  | cons index rest ih =>
    intro answers hk hlen
    have hidx : index < addrs.length := hk index (List.mem_cons_self _ _)
    have haddr : addrs[index]? = some addrs[index] := List.getElem?_eq_getElem hidx
    obtain ⟨c, hc⟩ := hret addrs[index] (List.getElem_mem _)
    obtain ⟨res, hres, hrl, hslots⟩ := ih (answers.set index c)
      (fun k hkm => hk k (List.mem_cons_of_mem _ hkm)) (by simpa using hlen)
    refine ⟨res, ?_, hrl, ?_⟩
    · rw [GetCountryMultiRun]
      simp only [haddr, hc, hlen, hidx, if_true]
      exact hres
    · intro k
      constructor
      · intro hmem a ha
        by_cases hr : k ∈ rest
        · exact (hslots k).1 hr a ha
        · have hki : k = index := by
            rcases List.mem_cons.mp hmem with h | h
            · exact h
            · exact absurd h hr
          subst hki
          rw [haddr] at ha
          cases ha
          refine ⟨c, ?_, hc⟩
          rw [(hslots k).2 hr, List.getElem?_set_self (by omega)]
      · intro hnot
        have hr : k ∉ rest := fun h => hnot (List.mem_cons_of_mem _ h)
        have hne : index ≠ k := fun h => hnot (h ▸ List.mem_cons_self _ _)
        rw [(hslots k).2 hr, List.getElem?_set_ne hne]

/-- On a batch of addresses for which `GetCountry` returns, whatever the order in which
the goroutines run (each index exactly once), `GetCountryMulti` returns a list of the
same length whose k-th element is `GetCountry` applied to the k-th input. -/
theorem GetCountryMulti_map (ips : LoadedIPs) (addrs : List (List Char))
    (schedule : List Nat) (hs : List.Perm schedule (List.range addrs.length))
    (hret : ∀ a ∈ addrs, ∃ c, GetCountry ips a = .ret c) :
    ∃ answers, GetCountryMulti ips addrs schedule = .ret answers ∧
      answers.length = addrs.length ∧
      addrs.map (GetCountry ips) = answers.map Exec.ret := by
  have hmem : ∀ k, k ∈ schedule ↔ k < addrs.length := fun k => by
    rw [hs.mem_iff, List.mem_range]
  obtain ⟨res, hres, hrl, hslots⟩ := GetCountryMultiRun_spec ips addrs hret schedule
    (List.replicate addrs.length []) (fun k hk => (hmem k).mp hk) (by simp)
  refine ⟨res, hres, hrl, ?_⟩
  apply List.ext_getElem?
  intro k
  rw [List.getElem?_map, List.getElem?_map]
  by_cases hk : k < addrs.length
  · have haddr : addrs[k]? = some addrs[k] := List.getElem?_eq_getElem hk
    obtain ⟨c, hc1, hc2⟩ := (hslots k).1 ((hmem k).mpr hk) _ haddr
    rw [haddr, hc1]
    simp [hc2]
  · rw [List.getElem?_eq_none (by omega), List.getElem?_eq_none (by omega)]
    rfl

theorem Ip4ToInt_wrong_count (ip : List Char) (h : (Split ip '.').length ≠ 4) :
    Ip4ToInt ip = .error .ErrInvalidIPv4 := by
  unfold Ip4ToInt
  split
  · rename_i p0 p1 p2 p3 hs
    rw [hs] at h
    exact absurd rfl h
  · rfl

theorem orShift_lt (result : Nat) (ipNumb : Int) (index : Nat) (h : result < 2 ^ 64) :
    orShift result ipNumb index < 2 ^ 64 := by
  unfold orShift
  exact Nat.or_lt_two_pow h (Nat.mod_lt _ (by positivity))

/-- Every key `Ip4ToInt` returns fits the 64 bits of `uint`. -/
theorem Ip4ToInt_lt (ip : List Char) (v : Nat) (h : Ip4ToInt ip = .ok v) : v < 2 ^ 64 := by
  unfold Ip4ToInt at h
  split at h
  · split at h
    · cases h
    · split at h
      · cases h
      · split at h
        · cases h
        · split at h
          · cases h
          · cases h
            exact orShift_lt _ _ _ (orShift_lt _ _ _ (orShift_lt _ _ _
              (orShift_lt _ _ _ (by norm_num))))
  · cases h

/-- An insert that returns an error returns the index it was given. -/
theorem addRaw_error_state (ips ips1 : LoadedIPs) (line : List Char) (e : GoError)
    (h : addRaw ips line = .ret (ips1, some e)) : ips1 = ips := by
  unfold addRaw at h
  cases hx : extract (removeQuotes line) with
  | error e1 =>
    simp only [hx, Exec.ret.injEq, Prod.mk.injEq] at h
    exact h.1.symm
  | ok f =>
    obtain ⟨startIP, endIP, country⟩ := f
    simp only [hx] at h
    by_cases h6 : isIPv6 startIP = true
    · simp only [h6, if_true] at h
      cases hs : Ip6ToInt startIP 0 with
      | panic => simp [hs] at h
      | timeout => simp [hs] at h
      | ret rs =>
        obtain ⟨vs, _ | es⟩ := rs
        · cases he : Ip6ToInt endIP 0 with
          | panic => simp [hs, he] at h
          | timeout => simp [hs, he] at h
          | ret re =>
            obtain ⟨ve, _ | ee⟩ := re
            · simp only [hs, he] at h
              split at h <;> simp at h
            · simp only [hs, he, Exec.ret.injEq, Prod.mk.injEq] at h
              exact h.1.symm
        · simp only [hs, Exec.ret.injEq, Prod.mk.injEq] at h
          exact h.1.symm
    · simp only [h6, if_false, Bool.false_eq_true] at h
      cases hs : Ip4ToInt startIP with
      | error es =>
        simp only [hs, Exec.ret.injEq, Prod.mk.injEq] at h
        exact h.1.symm
      | ok vs =>
        cases he : Ip4ToInt endIP with
        | error ee =>
          simp only [hs, he, Exec.ret.injEq, Prod.mk.injEq] at h
          exact h.1.symm
        | ok ve =>
          simp only [hs, he] at h
          split at h <;> simp at h

/-- One iteration of the loop of `binarySearch` on a non-empty interval inside the
slice: the probe is in bounds and inside the interval, and the iteration returns the
probe, or goes on with the part of the interval left of the probe, or with the part
right of it. -/
theorem binarySearchLoop_iteration (arr : List ip4Range) (key : Nat) (fuel : Nat)
    (start end_ : Int) (h0 : 0 ≤ start) (h : start ≤ end_) (h1 : end_ < arr.length) :
    ∃ r : ip4Range, arr[(Int.tdiv (start + end_) 2).toNat]? = some r ∧
      0 ≤ Int.tdiv (start + end_) 2 ∧ Int.tdiv (start + end_) 2 < arr.length ∧
      start ≤ Int.tdiv (start + end_) 2 ∧ Int.tdiv (start + end_) 2 ≤ end_ ∧
      ((r.start ≤ key ∧ key ≤ r.end ∧
          binarySearchLoop arr key (fuel + 1) start end_ = .ret (Int.tdiv (start + end_) 2)) ∨
        (key < r.start ∧
          binarySearchLoop arr key (fuel + 1) start end_ =
            binarySearchLoop arr key fuel start (Int.tdiv (start + end_) 2 - 1)) ∨
        (r.end < key ∧
          binarySearchLoop arr key (fuel + 1) start end_ =
            binarySearchLoop arr key fuel (Int.tdiv (start + end_) 2 + 1) end_)) := by
  have hb := mid_bounds start end_ h0 h
  have hlt : (Int.tdiv (start + end_) 2).toNat < arr.length := by omega
  have hr : arr[(Int.tdiv (start + end_) 2).toNat]? =
      some (arr[(Int.tdiv (start + end_) 2).toNat]) := List.getElem?_eq_getElem hlt
  refine ⟨_, hr, by omega, by omega, hb.1, hb.2, ?_⟩
  generalize hrm : arr[(Int.tdiv (start + end_) 2).toNat] = rm at hr
  have hs : ¬ start > end_ := by omega
  have hm : ¬ Int.tdiv (start + end_) 2 < 0 := by omega
  rw [binarySearchLoop]
  simp only [hs, hm, if_false, hr]
  by_cases c1 : rm.start ≤ key ∧ key ≤ rm.end
  · left
    exact ⟨c1.1, c1.2, by simp [c1]⟩
  · by_cases c2 : key < rm.start
    · right; left
      exact ⟨c2, by simp [c1, c2]⟩
    · have c3 : rm.end < key := by
        by_contra hc
        exact c1 ⟨by omega, by omega⟩
      right; right
      exact ⟨c3, by simp [c1, c2, c3]⟩

/-- With as much fuel as the interval has indices, the search of an interval inside the
slice returns. -/
theorem binarySearch_returns (arr : List ip4Range) (key : Nat) (start end_ : Int)
    (h0 : 0 ≤ start) (h1 : end_ < arr.length) :
    ∃ i, binarySearch arr key start end_ = .ret i := by
  unfold binarySearch
  rw [binarySearchLoop_eq_big]
  obtain ⟨i, hi, _⟩ := bigBinarySearchLoop_sound (arr.map toBig) (key : Int)
    (end_ - start + 1).toNat start end_ h0 (by simpa using h1) le_rfl
  exact ⟨i, hi⟩

/-! ## The properties of the specification -/

/-- C1: on a slice of IPv4 ranges with `start ≤ end`, sorted ascending by start and
pairwise disjoint, `binarySearch(arr, key, 0, len(arr)-1)` returns the index of the
range that contains the key, and `-1` when no range contains it. -/
theorem binarySearch_correct (arr : List ip4Range) (key : Nat)
    (hle : ∀ r ∈ arr, r.start ≤ r.end)
    (hs : arr.Pairwise (fun a b => a.start ≤ b.start))
    (hd : arr.Pairwise (fun a b =>
      ∀ k : Nat, ¬ (a.start ≤ k ∧ k ≤ a.end ∧ b.start ≤ k ∧ k ≤ b.end))) :
    (∀ (i : Nat) (r : ip4Range), arr[i]? = some r → r.start ≤ key → key ≤ r.end →
      binarySearch arr key 0 ((arr.length : Int) - 1) = .ret (i : Int)) ∧
    ((∀ r ∈ arr, ¬ (r.start ≤ key ∧ key ≤ r.end)) →
      binarySearch arr key 0 ((arr.length : Int) - 1) = .ret (-1)) :=
  ⟨fun i r hr h1 h2 => binarySearch_found arr key hle hs hd i r hr ⟨h1, h2⟩,
    fun h => binarySearch_absent arr key h⟩

/-- C1 at the slice of the end-to-end example: the key of 50.97.196.208 is found at
index 1, the key of 50.97.200.0 is in no range. -/
theorem binarySearch_correct_witness :
    binarySearch sampleRanges 845268176 0 2 = .ret 1 ∧
    binarySearch sampleRanges 845268992 0 2 = .ret (-1) :=
  ⟨(binarySearch_correct sampleRanges 845268176 (by decide) sampleRanges_sorted
      sampleRanges_disjoint).1 1 ⟨845267968, 845268479, "US".toList⟩ rfl (by decide) (by decide),
    (binarySearch_correct sampleRanges 845268992 (by decide) sampleRanges_sorted
      sampleRanges_disjoint).2 (by decide)⟩

/-- C2: for lines `s,e,c` whose endpoints are valid dotted-quad texts with
value(s) ≤ value(e), pairwise disjoint and listed in ascending order of start, every
insert into the empty index succeeds, and afterwards `GetCountry(a)` returns the country
of the line for every valid dotted-quad text `a` whose value lies in that line's
range.  A line `s,e,c` is a line whose three fields, once its double quotes are
removed, are `s`, `e` and `c` (`lineOf`); the index after the inserts holds the ranges
of the lines in the order of the lines. -/
theorem GetCountry_sorted_dataset (lines : List (List Char)) (rs : List ip4Range)
    (hl : List.Forall₂ lineOf lines rs)
    (hle : ∀ r ∈ rs, r.start ≤ r.end)
    (hd : rs.Pairwise (fun a b =>
      ∀ k : Nat, ¬ (a.start ≤ k ∧ k ≤ a.end ∧ b.start ≤ k ∧ k ≤ b.end)))
    (hs : rs.Pairwise (fun a b => a.start ≤ b.start)) :
    loadLines LoadedIPs.empty lines = .ret (⟨rs, []⟩, none) ∧
      ∀ r ∈ rs, ∀ (a : List Char) (v : Nat), dottedQuad a = some v →
        r.start ≤ v → v ≤ r.end → GetCountry ⟨rs, []⟩ a = .ret r.country := by
  refine ⟨?_, ?_⟩
  · have h := loadLines_lineOf lines rs LoadedIPs.empty hl hs (by simp [LoadedIPs.empty])
    simpa [LoadedIPs.empty] using h
  · intro r hr a v ha h1 h2
    obtain ⟨hv, h6, _⟩ := dottedQuad_spec a v ha
    exact GetCountry_v4_found ⟨rs, []⟩ a v h6 hv hle hs hd r hr ⟨h1, h2⟩

/-- C2 at the end-to-end example of the specification: the three lines load, and the
lookups of 0.0.0.0, 50.97.196.208 and 50.97.198.135 return ZZ, US and CN. -/
theorem GetCountry_sorted_dataset_witness :
    loadLines LoadedIPs.empty sampleLines = .ret (⟨sampleRanges, []⟩, none) ∧
      GetCountry ⟨sampleRanges, []⟩ "0.0.0.0".toList = .ret "ZZ".toList ∧
      GetCountry ⟨sampleRanges, []⟩ "50.97.196.208".toList = .ret "US".toList ∧
      GetCountry ⟨sampleRanges, []⟩ "50.97.198.135".toList = .ret "CN".toList := by
  obtain ⟨h1, h2⟩ := GetCountry_sorted_dataset sampleLines sampleRanges
    sampleLines_lineOf (by decide) sampleRanges_disjoint sampleRanges_sorted
  exact ⟨h1,
    h2 ⟨0, 16777215, "ZZ".toList⟩ (by decide) "0.0.0.0".toList 0 rfl (by decide) (by decide),
    h2 ⟨845267968, 845268479, "US".toList⟩ (by decide) "50.97.196.208".toList 845268176 rfl
      (by decide) (by decide),
    h2 ⟨845268480, 845268991, "CN".toList⟩ (by decide) "50.97.198.135".toList 845268615 rfl
      (by decide) (by decide)⟩

/-- C3 fails on the code: three successful inserts of disjoint ranges, the last one out
of order, leave the index as `unorderedIndex`, and the lookup of 2.0.0.0, the start of
the inserted range 2.0.0.0-2.0.0.255 of country AA, returns the empty text. -/
theorem roundtrip_fails_out_of_order :
    loadLines LoadedIPs.empty unorderedLines = .ret (unorderedIndex, none) ∧
    Ip4ToInt "2.0.0.0".toList = .ok 33554432 ∧
    (⟨33554432, 33554687, "AA".toList⟩ : ip4Range) ∈ unorderedIndex.arrV4 ∧
    GetCountry unorderedIndex "2.0.0.0".toList = .ret [] :=
  ⟨by rfl, by rfl, by decide, by rfl⟩

/-- C4 fails on the code: three successful inserts of disjoint ranges, the last one out
of order, leave `arrV4` with the starts 2.0.0.0, 1.0.0.0, 3.0.0.0, whose first two
adjacent starts are not in strict order; three such lines of IPv6 ranges leave `arrV6`
with the starts 2::, 1::, 3::. -/
theorem sortedness_fails_out_of_order :
    loadLines LoadedIPs.empty unorderedLines = .ret (unorderedIndex, none) ∧
    unorderedIndex.arrV4.map (fun r => r.start) = [33554432, 16777216, 50331648] ∧
    ¬ ((33554432 : Nat) < 16777216) ∧
    ¬ List.Pairwise (fun a b : ip4Range => a.start < b.start) unorderedIndex.arrV4 ∧
    loadLines LoadedIPs.empty
        ["2::,2::ffff,AA".toList, "3::,3::ffff,BB".toList, "1::,1::ffff,CC".toList] =
      .ret (⟨[], [⟨2 * 2 ^ 112, 2 * 2 ^ 112 + 65535 * 2 ^ 96, "AA".toList⟩,
        ⟨1 * 2 ^ 112, 1 * 2 ^ 112 + 65535 * 2 ^ 96, "CC".toList⟩,
        ⟨3 * 2 ^ 112, 3 * 2 ^ 112 + 65535 * 2 ^ 96, "BB".toList⟩]⟩, none) ∧
    ¬ ((2 : Int) * 2 ^ 112 < 1 * 2 ^ 112) :=
  ⟨by rfl, by rfl, by decide, by decide, by rfl, by decide⟩

/-- C5: no false match.  Without any assumption on the slice, an index other than `-1`
that `binarySearch(arr, key, 0, len(arr)-1)` returns is in bounds and its range contains
the key; so `GetCountry` returns the empty text for every address whose value lies
outside all loaded ranges of its family, and on the empty index for every address for
which the parser selected by the classification returns. -/
theorem no_false_match :
    (∀ (arr : List ip4Range) (key : Nat) (i : Int),
      binarySearch arr key 0 ((arr.length : Int) - 1) = .ret i → i ≠ -1 →
      0 ≤ i ∧ i < arr.length ∧
        ∃ r, arr[i.toNat]? = some r ∧ r.start ≤ key ∧ key ≤ r.end) ∧
    (∀ (ips : LoadedIPs) (ip : List Char) (v : Nat), isIPv6 ip = false →
      Ip4ToInt ip = .ok v → (∀ r ∈ ips.arrV4, ¬ (r.start ≤ v ∧ v ≤ r.end)) →
      GetCountry ips ip = .ret []) ∧
    (∀ (ips : LoadedIPs) (ip : List Char) (v : Int), isIPv6 ip = true →
      Ip6ToInt ip 0 = .ret (v, none) → (∀ r ∈ ips.arrV6, ¬ (r.start ≤ v ∧ v ≤ r.end)) →
      GetCountry ips ip = .ret []) ∧
    (∀ ip : List Char, (isIPv6 ip = false ∨ ∃ r, Ip6ToInt ip 0 = .ret r) →
      GetCountry LoadedIPs.empty ip = .ret []) := by
  refine ⟨?_, GetCountry_v4_absent, GetCountry_v6_absent, ?_⟩
  · intro arr key i hi hne
    obtain ⟨j, hj, hres⟩ := binarySearch_sound arr key
    rw [hi] at hj
    cases hj
    rcases hres with h | h
    · exact absurd h hne
    · exact h
  · intro ip hp
    by_cases h6 : isIPv6 ip = true
    · rcases hp with hp | ⟨r, hr⟩
      · rw [h6] at hp; cases hp
      · obtain ⟨v, _ | e⟩ := r
        · exact GetCountry_v6_absent LoadedIPs.empty ip v h6 hr (by simp [LoadedIPs.empty])
        · unfold GetCountry
          simp [h6, hr]
    · have h6f : isIPv6 ip = false := by simpa using h6
      cases hv : Ip4ToInt ip with
      | error e =>
        unfold GetCountry
        simp [h6f, hv]
      | ok v => exact GetCountry_v4_absent LoadedIPs.empty ip v h6f hv (by simp [LoadedIPs.empty])

/-- C5 at the slice of the end-to-end example: 50.97.200.0 is one past the end of the
last range and in no range, and its lookup returns the empty text; the index that the
search returns for the key of 50.97.196.208 contains that key; on an index with one
IPv6 range the lookup of "2002::", past its end, returns the empty text; and so does
the lookup of "fec0::" on the empty index. -/
theorem no_false_match_witness :
    GetCountry ⟨sampleRanges, []⟩ "50.97.200.0".toList = .ret [] ∧
    (0 ≤ (1 : Int) ∧ (1 : Int) < sampleRanges.length ∧
      ∃ r, sampleRanges[(1 : Int).toNat]? = some r ∧ r.start ≤ 845268176 ∧ 845268176 ≤ r.end) ∧
    GetCountry ⟨[], [⟨0x2001 * 2 ^ 112, 0x2001 * 2 ^ 112 + 65535, "V6".toList⟩]⟩
      "2002::".toList = .ret [] ∧
    GetCountry LoadedIPs.empty "fec0::".toList = .ret [] :=
  ⟨no_false_match.2.1 ⟨sampleRanges, []⟩ "50.97.200.0".toList 845268992 (by rfl) (by rfl)
      (by decide),
    no_false_match.1 sampleRanges 845268176 1 (by rfl) (by decide),
    no_false_match.2.2.1 ⟨[], [⟨0x2001 * 2 ^ 112, 0x2001 * 2 ^ 112 + 65535, "V6".toList⟩]⟩
      "2002::".toList (0x2002 * 2 ^ 112) (by rfl) (by rfl) (by decide),
    no_false_match.2.2.2 "fec0::".toList (Or.inr ⟨(0xfec0 * 2 ^ 112, none), by rfl⟩)⟩

/-- C6: on a text `b0.b1.b2.b3` whose components are the decimal representations of
integers in 0..255, `Ip4ToInt` succeeds and returns `b0*2^24 + b1*2^16 + b2*2^8 + b3`;
the same holds for any four non-empty texts of decimal digits with values in 0..255
(leading zeros included); and the four literals of the test evaluate as stated. -/
theorem Ip4ToInt_dotted_quad :
    (∀ b0 b1 b2 b3 : Nat, b0 ≤ 255 → b1 ≤ 255 → b2 ≤ 255 → b3 ≤ 255 →
      Ip4ToInt ((Nat.repr b0).toList ++ '.' :: ((Nat.repr b1).toList ++ '.' ::
        ((Nat.repr b2).toList ++ '.' :: (Nat.repr b3).toList))) =
        .ok (b0 * 2 ^ 24 + b1 * 2 ^ 16 + b2 * 2 ^ 8 + b3)) ∧
    (∀ p0 p1 p2 p3 : List Char, byteText p0 = true → byteText p1 = true →
      byteText p2 = true → byteText p3 = true →
      Ip4ToInt (p0 ++ '.' :: (p1 ++ '.' :: (p2 ++ '.' :: p3))) =
        .ok (decimalValue p0 * 2 ^ 24 + decimalValue p1 * 2 ^ 16 + decimalValue p2 * 2 ^ 8
          + decimalValue p3)) ∧
    Ip4ToInt "0.0.0.255".toList = .ok 255 ∧
    Ip4ToInt "0.0.1.255".toList = .ok 511 ∧
    Ip4ToInt "255.0.0.0".toList = .ok 4278190080 ∧
    Ip4ToInt "255.255.255.255".toList = .ok 4294967295 := by
  have general : ∀ p0 p1 p2 p3 : List Char, byteText p0 = true → byteText p1 = true →
      byteText p2 = true → byteText p3 = true →
      Ip4ToInt (p0 ++ '.' :: (p1 ++ '.' :: (p2 ++ '.' :: p3))) =
        .ok (decimalValue p0 * 2 ^ 24 + decimalValue p1 * 2 ^ 16 + decimalValue p2 * 2 ^ 8
          + decimalValue p3) :=
    fun p0 p1 p2 p3 h0 h1 h2 h3 =>
      Ip4ToInt_of_Split _ p0 p1 p2 p3 (Split_quad p0 p1 p2 p3 h0 h1 h2 h3) h0 h1 h2 h3
  refine ⟨?_, general, by rfl, by rfl, by rfl, by rfl⟩
  intro b0 b1 b2 b3 h0 h1 h2 h3
  obtain ⟨t0, v0⟩ := repr_byteText b0 (by omega)
  obtain ⟨t1, v1⟩ := repr_byteText b1 (by omega)
  obtain ⟨t2, v2⟩ := repr_byteText b2 (by omega)
  obtain ⟨t3, v3⟩ := repr_byteText b3 (by omega)
  rw [general _ _ _ _ t0 t1 t2 t3, v0, v1, v2, v3]

/-- C6 at 50.97.196.208, from the numbers and from the digits. -/
theorem Ip4ToInt_dotted_quad_witness :
    Ip4ToInt "50.97.196.208".toList = .ok (50 * 2 ^ 24 + 97 * 2 ^ 16 + 196 * 2 ^ 8 + 208) ∧
    Ip4ToInt "050.097.196.208".toList = .ok (50 * 2 ^ 24 + 97 * 2 ^ 16 + 196 * 2 ^ 8 + 208) :=
  ⟨Ip4ToInt_dotted_quad.1 50 97 196 208 (by decide) (by decide) (by decide) (by decide),
    Ip4ToInt_dotted_quad.2.1 "050".toList "097".toList "196".toList "208".toList
      (by rfl) (by rfl) (by rfl) (by rfl)⟩

/-- C7: from a zero accumulator, on a text whose non-empty ':'-separated segments,
at most eight (positions 0..7), all parse as non-negative base-16 numbers, `Ip6ToInt`
succeeds and leaves in the accumulator the bitwise OR of the values, the value at
position `i` multiplied by `2^((7 - i) * 16)`; a text with no non-empty segment, such
as "::", yields zero. -/
theorem Ip6ToInt_or_of_segments :
    (∀ (ip : List Char) (vals : List Nat),
      List.Forall₂ (fun (p : List Char) (v : Nat) => ParseInt p 16 = .ok (v : Int))
        ((Split ip ':').filter (fun part => part ≠ [])) vals →
      vals.length ≤ 8 →
      Ip6ToInt ip 0 = .ret (((orGroups vals 0 : Nat) : Int), none)) ∧
    (∀ ip : List Char, (Split ip ':').filter (fun part => part ≠ []) = [] →
      Ip6ToInt ip 0 = .ret (0, none)) ∧
    Ip6ToInt "::".toList 0 = .ret (0, none) := by
  refine ⟨Ip6ToInt_ok, ?_, by rfl⟩
  intro ip h
  have := Ip6ToInt_ok ip [] (by rw [h]; exact List.Forall₂.nil) (by simp)
  simpa [orGroups] using this

/-- C7 at "fec0::1": two non-empty segments, at positions 0 and 1. -/
theorem Ip6ToInt_or_of_segments_witness :
    Ip6ToInt "fec0::1".toList 0 =
      .ret (((0xfec0 * 2 ^ ((7 - 0) * 16) ||| (1 * 2 ^ ((7 - 1) * 16) ||| 0) : Nat) : Int),
        none) :=
  Ip6ToInt_or_of_segments.1 "fec0::1".toList [0xfec0, 1]
    (List.Forall₂.cons (by rfl) (List.Forall₂.cons (by rfl) List.Forall₂.nil))
    (by decide)

/-- C8 fails as stated: "::1" is well formed and its single elision is at the very
start; its standard value, that of the groups 0:0:0:0:0:0:0:1, is 1, but `Ip6ToInt`
yields `2^112`. -/
theorem Ip6ToInt_leading_elision_counterexample :
    hexGroup "1".toList = true ∧
    Ip6ToInt (':' :: ':' :: joinGroups ["1".toList]) 0 ≠
      .ret (((groupsValue (List.replicate 7 0 ++ ["1".toList].map hexValue) 0 : Nat) : Int),
        none) ∧
    Ip6ToInt "::1".toList 0 = .ret (2 ^ 112, none) ∧
    groupsValue (List.replicate 7 0 ++ ["1".toList].map hexValue) 0 = 1 :=
  ⟨by rfl, by decide, by rfl, by rfl⟩

/-- C8 (as amended): on a well-formed IPv6 text with no "::" elision (eight groups of
one to four hexadecimal digits joined by ':'), or whose single "::" elision is at the
very end (at most seven groups followed by "::"), `Ip6ToInt` yields the standard
128-bit value of the expanded address, the sum of `g_i * 2^(16*(7-i))`. -/
theorem Ip6ToInt_standard_value :
    (∀ gs : List (List Char), gs.length = 8 → (∀ g ∈ gs, hexGroup g = true) →
      Ip6ToInt (joinGroups gs) 0 =
        .ret (((groupsValue (gs.map hexValue) 0 : Nat) : Int), none)) ∧
    (∀ gs : List (List Char), gs.length ≤ 7 → (∀ g ∈ gs, hexGroup g = true) →
      Ip6ToInt (joinGroups gs ++ [':', ':']) 0 =
        .ret (((groupsValue (gs.map hexValue ++ List.replicate (8 - gs.length) 0) 0 : Nat) :
          Int), none)) := by
  constructor
  · intro gs hlen hg
    exact Ip6ToInt_groups _ gs
      (parts_joinGroups gs (fun g hgm => not_colon_of_hexGroup g (hg g hgm))) hg (by omega)
  · intro gs hlen hg
    rw [groupsValue_append_zeros]
    exact Ip6ToInt_groups _ gs
      (parts_joinGroups_elided gs (fun g hgm => not_colon_of_hexGroup g (hg g hgm))) hg
      (by omega)

/-- C8 (as amended) at "2001:db8::" and at "1:2:3:4:5:6:7:8". -/
theorem Ip6ToInt_standard_value_witness :
    Ip6ToInt "2001:db8::".toList 0 = .ret (0x20010db8000000000000000000000000, none) ∧
    Ip6ToInt "1:2:3:4:5:6:7:8".toList 0 = .ret (0x00010002000300040005000600070008, none) :=
  ⟨Ip6ToInt_standard_value.2 ["2001".toList, "db8".toList] (by decide) (by decide),
    Ip6ToInt_standard_value.1 ["1".toList, "2".toList, "3".toList, "4".toList, "5".toList,
      "6".toList, "7".toList, "8".toList] (by decide) (by decide)⟩

/-- C9: parse errors are swallowed at query time.  When the parser selected by the
classification fails, that is returns an error (`Ip6ToInt` when the text contains ':',
`Ip4ToInt` otherwise), `GetCountry` returns the empty text; its result carries no
error. -/
theorem GetCountry_swallows_parse_errors (ips : LoadedIPs) (ip : List Char)
    (h : (isIPv6 ip = true ∧ ∃ v e, Ip6ToInt ip 0 = .ret (v, some e)) ∨
      (isIPv6 ip = false ∧ ∃ e, Ip4ToInt ip = .error e)) :
    GetCountry ips ip = .ret [] := by
  rcases h with ⟨h6, v, e, he⟩ | ⟨h6, e, he⟩
  · unfold GetCountry
    simp [h6, he]
  · unfold GetCountry
    simp [h6, he]

/-- C9 at the texts "1.2.3.x" and "12g4::" on the index of the end-to-end example. -/
theorem GetCountry_swallows_parse_errors_witness :
    GetCountry ⟨sampleRanges, []⟩ "1.2.3.x".toList = .ret [] ∧
    GetCountry ⟨sampleRanges, []⟩ "12g4::".toList = .ret [] :=
  ⟨GetCountry_swallows_parse_errors ⟨sampleRanges, []⟩ "1.2.3.x".toList
      (Or.inr ⟨by rfl, GoError.SyntaxErr, by rfl⟩),
    GetCountry_swallows_parse_errors ⟨sampleRanges, []⟩ "12g4::".toList
      (Or.inl ⟨by rfl, 0, GoError.SyntaxErr, by rfl⟩)⟩

/-- C10: `addRaw` fails with `ErrInvalidLine` if and only if the line, after all double
quotes are removed, does not split on ',' into exactly 3 fields. -/
theorem addRaw_ErrInvalidLine_iff (ips : LoadedIPs) (line : List Char) :
    (∃ ips1, addRaw ips line = .ret (ips1, some .ErrInvalidLine)) ↔
      (Split (removeQuotes line) ',').length ≠ 3 := by
  constructor
  · rintro ⟨ips1, h⟩
    by_contra hlen
    cases hx : extract (removeQuotes line) with
    | error e => exact (extract_error_iff _).mp ⟨e, hx⟩ hlen
    | ok f =>
      rcases addRaw_error_of_fields ips ips1 line f hx _ h with h1 | h1 | h1 <;> cases h1
  · intro hlen
    obtain ⟨e, he⟩ := (extract_error_iff _).mpr hlen
    have := extract_error_kind _ e he
    subst this
    exact ⟨ips, by unfold addRaw; simp only [he]⟩

/-- C11 fails on the code for a non-numeric component: `Ip4ToInt("1.2.3.x")` returns the
error of `strconv.Atoi`, not `ErrInvalidIPv4`, and so does an insert of a line with that
start; a text that does not split on '.' into exactly 4 components does fail with
`ErrInvalidIPv4`. -/
theorem Ip4ToInt_non_numeric_error :
    Ip4ToInt "1.2.3.x".toList = .error .SyntaxErr ∧
    addRaw LoadedIPs.empty "1.2.3.x,1.2.3.4,US".toList =
      .ret (LoadedIPs.empty, some .SyntaxErr) ∧
    GoError.SyntaxErr ≠ GoError.ErrInvalidIPv4 ∧
    (∀ ip : List Char, (Split ip '.').length ≠ 4 → Ip4ToInt ip = .error .ErrInvalidIPv4) :=
  ⟨by rfl, by rfl, by decide, Ip4ToInt_wrong_count⟩

/-- C12 fails as stated: the line "1.2.3,5.6.7.8,US" splits into three fields, and its
insert into the empty index fails with `ErrInvalidIPv4`, which is not
`ErrInvalidLine`. -/
theorem malformed_line_counterexample :
    (Split (removeQuotes "1.2.3,5.6.7.8,US".toList) ',').length = 3 ∧
    addRaw LoadedIPs.empty "1.2.3,5.6.7.8,US".toList =
      .ret (LoadedIPs.empty, some .ErrInvalidIPv4) ∧
    GoError.ErrInvalidIPv4 ≠ GoError.ErrInvalidLine :=
  ⟨by rfl, by rfl, by decide⟩

/-- C12 (as amended): inserting the malformed line "1.2.3,5.6.7.8,US" fails with the
error `ErrInvalidIPv4` (its start "1.2.3" has three components), whatever the index, and
leaves the index as it was. -/
theorem malformed_line_ErrInvalidIPv4 (ips : LoadedIPs) :
    addRaw ips "1.2.3,5.6.7.8,US".toList = .ret (ips, some .ErrInvalidIPv4) := by
  rfl

/-- C13 fails on the code: `uint` has 64 bits, the component 256 is not truncated by
the shift, and `Ip4ToInt("256.0.0.0")` returns `2^32`, which does not fit 32 bits; the
keys that `Ip4ToInt` returns are below `2^64`. -/
theorem Ip4ToInt_exceeds_32_bits :
    Ip4ToInt "256.0.0.0".toList = .ok 4294967296 ∧
    ¬ ((4294967296 : Nat) < 2 ^ 32) ∧
    (∀ (ip : List Char) (v : Nat), Ip4ToInt ip = .ok v → v < 2 ^ 64) :=
  ⟨by rfl, by decide, Ip4ToInt_lt⟩

/-- C15 fails on the code for a batch that holds an address of nine non-zero groups: at
the ninth group the shift count `(7 - index) * 16` wraps on `uint`, `Lsh` panics, and so
do `GetCountry` and, in whichever order the goroutines run, `GetCountryMulti`, which
returns no list.  On every batch of addresses for which `GetCountry` returns, and in
every order of the goroutines (each index exactly once), `GetCountryMulti` returns a
list of the same length whose k-th element is `GetCountry` applied to the k-th input. -/
theorem GetCountryMulti_panics_on_ninth_group :
    Ip6ToInt "1:2:3:4:5:6:7:8:9".toList 0 = .panic ∧
    GetCountry ⟨sampleRanges, []⟩ "1:2:3:4:5:6:7:8:9".toList = .panic ∧
    GetCountryMulti ⟨sampleRanges, []⟩
      ["0.0.0.0".toList, "1:2:3:4:5:6:7:8:9".toList] [0, 1] = .panic ∧
    GetCountryMulti ⟨sampleRanges, []⟩
      ["0.0.0.0".toList, "1:2:3:4:5:6:7:8:9".toList] [1, 0] = .panic ∧
    GetCountryMulti ⟨sampleRanges, []⟩
        ["0.0.0.0".toList, "50.97.196.208".toList, "50.97.198.135".toList] [2, 0, 1] =
      .ret ["ZZ".toList, "US".toList, "CN".toList] ∧
    (∀ (ips : LoadedIPs) (addrs : List (List Char)) (schedule : List Nat),
      List.Perm schedule (List.range addrs.length) →
      (∀ a ∈ addrs, ∃ c, GetCountry ips a = .ret c) →
      ∃ answers, GetCountryMulti ips addrs schedule = .ret answers ∧
        answers.length = addrs.length ∧
        addrs.map (GetCountry ips) = answers.map Exec.ret) :=
  ⟨by rfl, by rfl, by rfl, by rfl, by rfl, GetCountryMulti_map⟩

/-- C16 fails on the code: the first two elements of `unorderedRanges` are sorted by
start and its last element has the smallest start, but `ensureV4Sorted` moves the last
element back by one place only and leaves the slice unsorted; `ensureV6Sorted` does the
same on the converted slice. -/
theorem insertion_step_misplaces :
    List.Pairwise (fun a b : ip4Range => a.start ≤ b.start) unorderedRanges.dropLast ∧
    ensureV4Sorted unorderedRanges = .ret unorderedIndex.arrV4 ∧
    ¬ List.Pairwise (fun a b : ip4Range => a.start ≤ b.start) unorderedIndex.arrV4 ∧
    ensureV6Sorted (unorderedRanges.map toBig) = .ret (unorderedIndex.arrV4.map toBig) ∧
    ¬ List.Pairwise (fun a b : ip6Range => a.start ≤ b.start)
      (unorderedIndex.arrV4.map toBig) :=
  ⟨by decide, by rfl, by decide, by rfl, by decide⟩

/-- C17: no range is removed or mutated by an insert.  On every non-empty slice
`ensureV4Sorted` returns a permutation of its input of the same length in which the
elements other than the last input element keep their relative order (the input without
its last element is a sublist of the result); hence after a successful `addRaw` the
slice of the family of the line's start is a permutation of the previous ranges plus
the range of the line (its two endpoints as parsed and its country field), with the
previous ranges in their previous order, and the other slice is unchanged. -/
theorem insert_keeps_ranges :
    (∀ arr : List ip4Range, arr ≠ [] →
      ∃ res, ensureV4Sorted arr = .ret res ∧ List.Perm res arr ∧ res.length = arr.length ∧
        List.Sublist arr.dropLast res) ∧
    (∀ (ips ips1 : LoadedIPs) (line : List Char), addRaw ips line = .ret (ips1, none) →
      ∃ startIP endIP country : List Char,
        extract (removeQuotes line) = .ok (startIP, endIP, country) ∧
        ((isIPv6 startIP = false ∧ ∃ s e : Nat,
            Ip4ToInt startIP = .ok s ∧ Ip4ToInt endIP = .ok e ∧
            List.Perm ips1.arrV4 (ips.arrV4 ++ [⟨s, e, country⟩]) ∧
            List.Sublist ips.arrV4 ips1.arrV4 ∧ ips1.arrV6 = ips.arrV6) ∨
          (isIPv6 startIP = true ∧ ∃ s e : Int,
            Ip6ToInt startIP 0 = .ret (s, none) ∧ Ip6ToInt endIP 0 = .ret (e, none) ∧
            List.Perm ips1.arrV6 (ips.arrV6 ++ [⟨s, e, country⟩]) ∧
            List.Sublist ips.arrV6 ips1.arrV6 ∧ ips1.arrV4 = ips.arrV4))) := by
  constructor
  · intro arr hne
    rcases List.eq_nil_or_concat arr with hnil | ⟨pre, x, hc⟩
    · exact absurd hnil hne
    · rw [List.concat_eq_append] at hc
      subst hc
      obtain ⟨a1, a2, hsplit, hres⟩ := ensureV4Sorted_shift pre x
      subst hsplit
      refine ⟨_, hres, perm_of_insert_at a1 a2 x, by simp, ?_⟩
      rw [List.dropLast_concat]
      exact sublist_of_insert_at a1 a2 x
  · intro ips ips1 line hadd
    obtain ⟨startIP, endIP, country, hx, hcases⟩ := addRaw_ok_cases ips ips1 line hadd
    refine ⟨startIP, endIP, country, hx, ?_⟩
    rcases hcases with ⟨h6, s, e, arr, hs, he, hen, rfl⟩ | ⟨h6, s, e, arr, hs, he, hen, rfl⟩
    · left
      obtain ⟨a1, a2, hsplit, hres⟩ := ensureV4Sorted_shift ips.arrV4 ⟨s, e, country⟩
      rw [hres] at hen
      cases hen
      refine ⟨h6, s, e, hs, he, ?_, ?_, rfl⟩
      · rw [hsplit]; exact perm_of_insert_at a1 a2 _
      · rw [hsplit]; exact sublist_of_insert_at a1 a2 _
    · right
      obtain ⟨a1, a2, hsplit, hres⟩ := ensureV6Sorted_shift ips.arrV6 ⟨s, e, country⟩
      rw [hres] at hen
      cases hen
      refine ⟨h6, s, e, hs, he, ?_, ?_, rfl⟩
      · rw [hsplit]; exact perm_of_insert_at a1 a2 _
      · rw [hsplit]; exact sublist_of_insert_at a1 a2 _

/-- C17 at the out-of-order insert of the line 1.0.0.0-1.0.0.255 CC into the index that
holds 2.0.0.0-2.0.0.255 AA and 3.0.0.0-3.0.0.255 BB: the insertion step returns a
permutation, and `addRaw` leaves the two previous ranges in their order with the range
of the line among them. -/
theorem insert_keeps_ranges_witness :
    (ensureV4Sorted unorderedRanges = .ret unorderedIndex.arrV4 ∧
      List.Perm unorderedIndex.arrV4 unorderedRanges ∧
      unorderedIndex.arrV4.length = unorderedRanges.length ∧
      List.Sublist unorderedRanges.dropLast unorderedIndex.arrV4) ∧
    (addRaw ⟨[⟨33554432, 33554687, "AA".toList⟩, ⟨50331648, 50331903, "BB".toList⟩], []⟩
        "1.0.0.0,1.0.0.255,CC".toList = .ret (unorderedIndex, none) ∧
      List.Perm unorderedIndex.arrV4
        ([⟨33554432, 33554687, "AA".toList⟩, ⟨50331648, 50331903, "BB".toList⟩] ++
          [⟨16777216, 16777471, "CC".toList⟩]) ∧
      List.Sublist [⟨33554432, 33554687, "AA".toList⟩, ⟨50331648, 50331903, "BB".toList⟩]
        unorderedIndex.arrV4 ∧
      unorderedIndex.arrV6 = []) := by
  constructor
  · obtain ⟨res, h1, h2, h3, h4⟩ := insert_keeps_ranges.1 unorderedRanges (by decide)
    have e : ensureV4Sorted unorderedRanges = .ret unorderedIndex.arrV4 := by rfl
    rw [e] at h1
    cases h1
    exact ⟨e, h2, h3, h4⟩
  · have hadd : addRaw
        ⟨[⟨33554432, 33554687, "AA".toList⟩, ⟨50331648, 50331903, "BB".toList⟩], []⟩
        "1.0.0.0,1.0.0.255,CC".toList = .ret (unorderedIndex, none) := by rfl
    obtain ⟨startIP, endIP, country, hx, hcases⟩ := insert_keeps_ranges.2 _ _ _ hadd
    have ex : extract (removeQuotes "1.0.0.0,1.0.0.255,CC".toList) =
        .ok ("1.0.0.0".toList, "1.0.0.255".toList, "CC".toList) := by rfl
    rw [ex] at hx
    cases hx
    rcases hcases with ⟨_, s, e, hs, he, hperm, hsub, h6⟩ | ⟨h6, _⟩
    · have es : Ip4ToInt "1.0.0.0".toList = .ok 16777216 := by rfl
      have ee : Ip4ToInt "1.0.0.255".toList = .ok 16777471 := by rfl
      rw [es] at hs
      rw [ee] at he
      cases hs
      cases he
      exact ⟨hadd, hperm, hsub, h6⟩
    · exact absurd h6 (by decide)

/-- C18: the IPv6 search is the same algorithm as the IPv4 search.  On every slice of
IPv4 ranges, every key and every pair of bounds, `bigBinarySearch` on the slice and the
key converted to big integers returns what `binarySearch` returns on the originals. -/
theorem bigBinarySearch_agrees_with_binarySearch (arr : List ip4Range) (key : Nat)
    (start end_ : Int) :
    bigBinarySearch (arr.map toBig) (key : Int) start end_ =
      binarySearch arr key start end_ :=
  (binarySearch_eq_big arr key start end_).symm

/-- C19: a failing insert is atomic.  Whenever `addRaw` returns an error, be it
`ErrInvalidLine` or the failure to parse either endpoint, the index after the call is
the index before it: `arrV4` and `arrV6` are as they were. -/
theorem addRaw_failure_is_atomic (ips ips1 : LoadedIPs) (line : List Char) (e : GoError)
    (h : addRaw ips line = .ret (ips1, some e)) :
    ips1.arrV4 = ips.arrV4 ∧ ips1.arrV6 = ips.arrV6 := by
  rw [addRaw_error_state ips ips1 line e h]
  exact ⟨rfl, rfl⟩

/-- C19 at a line with a valid start and an invalid end, on the index of the end-to-end
example. -/
theorem addRaw_failure_is_atomic_witness :
    addRaw ⟨sampleRanges, []⟩ "60.0.0.0,60.0.0.x,US".toList =
      .ret (⟨sampleRanges, []⟩, some .SyntaxErr) ∧
    (⟨sampleRanges, []⟩ : LoadedIPs).arrV4 = sampleRanges ∧
    (⟨sampleRanges, []⟩ : LoadedIPs).arrV6 = [] :=
  ⟨by rfl,
    addRaw_failure_is_atomic ⟨sampleRanges, []⟩ ⟨sampleRanges, []⟩
      "60.0.0.0,60.0.0.x,US".toList .SyntaxErr (by rfl)⟩

/-- C20: `binarySearch` is total and in bounds.  On every slice and every key the call
`binarySearch(arr, key, 0, len(arr)-1)` returns (it neither runs out of the fuel given
by the length of the interval nor indexes out of range), and so does every call on an
interval inside the slice; every iteration on a non-empty interval inside the slice
probes an index `mid` with `0 ≤ mid < len(arr)` and `start ≤ mid ≤ end`, and either
returns or goes on with `[start, mid-1]` or `[mid+1, end]`, a strictly shorter
interval. -/
theorem binarySearch_total_in_bounds :
    (∀ (arr : List ip4Range) (key : Nat),
      ∃ i, binarySearch arr key 0 ((arr.length : Int) - 1) = .ret i) ∧
    (∀ (arr : List ip4Range) (key : Nat) (start end_ : Int), 0 ≤ start →
      end_ < arr.length → ∃ i, binarySearch arr key start end_ = .ret i) ∧
    (∀ (arr : List ip4Range) (key : Nat) (fuel : Nat) (start end_ : Int),
      0 ≤ start → start ≤ end_ → end_ < arr.length →
      ∃ r : ip4Range, arr[(Int.tdiv (start + end_) 2).toNat]? = some r ∧
        0 ≤ Int.tdiv (start + end_) 2 ∧ Int.tdiv (start + end_) 2 < arr.length ∧
        start ≤ Int.tdiv (start + end_) 2 ∧ Int.tdiv (start + end_) 2 ≤ end_ ∧
        ((r.start ≤ key ∧ key ≤ r.end ∧
            binarySearchLoop arr key (fuel + 1) start end_ =
              .ret (Int.tdiv (start + end_) 2)) ∨
          (key < r.start ∧
            binarySearchLoop arr key (fuel + 1) start end_ =
              binarySearchLoop arr key fuel start (Int.tdiv (start + end_) 2 - 1)) ∨
          (r.end < key ∧
            binarySearchLoop arr key (fuel + 1) start end_ =
              binarySearchLoop arr key fuel (Int.tdiv (start + end_) 2 + 1) end_))) :=
  ⟨fun arr key => binarySearch_returns arr key 0 _ le_rfl (by omega),
    binarySearch_returns,
    binarySearchLoop_iteration⟩

/-- C20 on the unsorted slice of `unorderedIndex`: the first probe of the interval
0..2 is in bounds, and the search returns, as it does on a slice with an inverted range
and on the empty slice. -/
theorem binarySearch_total_in_bounds_witness :
    ((0 : Int) ≤ Int.tdiv (0 + 2) 2 ∧
      Int.tdiv (0 + 2) 2 < ((unorderedIndex.arrV4.length : Nat) : Int)) ∧
    binarySearch unorderedIndex.arrV4 33554432 0 2 = .ret (-1) ∧
    binarySearch [⟨9, 3, []⟩, ⟨5, 5, []⟩] 4 0 1 = .ret (-1) ∧
    binarySearch [] 7 0 (-1) = .ret (-1) := by
  obtain ⟨r, _, h1, h2, _⟩ := binarySearch_total_in_bounds.2.2 unorderedIndex.arrV4 33554432 2
    0 2 (by decide) (by decide) (by decide)
  exact ⟨⟨h1, h2⟩, by rfl, by rfl, by rfl⟩

end Ip2country
